import Mathlib

/-!
Verification of the Hinglish translator core (`hinglish_translator.py`).

The program's strings are modelled as `List Char`.  Regular-expression
semantics (Python `re.sub` with the two patterns used by the source, and
the word-boundary assertion `\b`) are embedded as explicit left-to-right
scanners.  The external translation collaborator is an oracle
`SvcCall → Except ε (List Char)`; the orchestrator is instrumented with
the list of service calls it makes, so that claims about "no call made"
and "halts processing" are statable.
-/

namespace Hinglish

/-- Characters of the Devanagari Unicode block U+0900 to U+097F, the range of
the source's `hindi_pattern` regex `[ऀ-ॿ]`. -/
def isDevanagari (c : Char) : Bool :=
  0x900 ≤ c.toNat && c.toNat ≤ 0x97F

/-- ASCII Latin letters A-Z and a-z, the range of the source's
`english_pattern` regex `[a-zA-Z]`. -/
def isLatinLetter (c : Char) : Bool :=
  (0x41 ≤ c.toNat && c.toNat ≤ 0x5A) || (0x61 ≤ c.toNat && c.toNat ≤ 0x7A)

/-- Uppercase ASCII letter A-Z. -/
def isUpperLatin (c : Char) : Bool :=
  0x41 ≤ c.toNat && c.toNat ≤ 0x5A

/-- Decimal digits recognised by the regex class `\d` over the character
repertoire this program works with: ASCII digits and the Devanagari digits
U+0966 to U+096F. -/
def pyDigit (c : Char) : Bool :=
  (0x30 ≤ c.toNat && c.toNat ≤ 0x39) || (0x966 ≤ c.toNat && c.toNat ≤ 0x96F)

/-- Word characters for the regex boundary assertion `\b` over the repertoire
this program works with: ASCII alphanumerics, the underscore, and the
Devanagari block (Python `\w` is Unicode-aware). -/
def isWordChar (c : Char) : Bool :=
  isLatinLetter c || pyDigit c || c.toNat = 0x5F || isDevanagari c

/-- The whitespace characters stripped by Python's `str.strip`
(the Unicode whitespace set used by `str.isspace`). -/
def pyIsSpace (c : Char) : Bool :=
  (0x09 ≤ c.toNat && c.toNat ≤ 0x0D) ||
  (0x1C ≤ c.toNat && c.toNat ≤ 0x1F) ||
  c.toNat = 0x20 || c.toNat = 0x85 || c.toNat = 0xA0 || c.toNat = 0x1680 ||
  (0x2000 ≤ c.toNat && c.toNat ≤ 0x200A) ||
  c.toNat = 0x2028 || c.toNat = 0x2029 || c.toNat = 0x202F ||
  c.toNat = 0x205F || c.toNat = 0x3000

/-- Python `str.strip`: remove leading and trailing whitespace. -/
def pyStrip (t : List Char) : List Char :=
  ((t.dropWhile pyIsSpace).reverse.dropWhile pyIsSpace).reverse

/-- `HinglishTranslator.detect_language_mix`: whether the text contains a
Devanagari character, and whether it contains an ASCII letter. -/
def detect_language_mix (t : List Char) : Bool × Bool :=
  (t.any isDevanagari, t.any isLatinLetter)

/-- The fixed sentence-terminator set of `split_sentences`:
the characters of the source literal `'.!?‡•§'`. -/
def isTerminator (c : Char) : Bool :=
  c = '.' || c = '!' || c = '?' || c = '‡' || c = '•' || c = '§'

/-- The accumulating loop of `HinglishTranslator.split_sentences`. -/
def splitGo (current : List Char) : List Char → List (List Char)
  | [] => if current = [] then [] else [current]
  | c :: cs =>
    if isTerminator c then (current ++ [c]) :: splitGo [] cs
    else splitGo (current ++ [c]) cs

/-- `HinglishTranslator.split_sentences`. -/
def split_sentences (t : List Char) : List (List Char) :=
  splitGo [] t

/-- The placeholder token produced by `HinglishTranslator._preserve_term`:
the literal `PRESERVED_` followed by the decimal index. -/
def marker (n : Nat) : List Char :=
  "PRESERVED_".toList ++ (Nat.repr n).toList

/-- One attempted match of the pattern `\b[A-Z][a-zA-Z]*\b` at the head of
`t` (the caller has already checked the left boundary).  Returns the matched
run and the remainder.  The trailing `\b` holds exactly when the character
after the maximal letter run is absent or not a word character; backtracking
to a shorter run can never restore the boundary, since the following
character would then be a letter. -/
def capMatch : List Char → Option (List Char × List Char)
  | [] => none
  | c :: cs =>
    if isUpperLatin c then
      match (c :: cs).dropWhile isLatinLetter with
      | [] => some ((c :: cs).takeWhile isLatinLetter, [])
      | d :: ds =>
        if isWordChar d then none
        else some ((c :: cs).takeWhile isLatinLetter, d :: ds)
    else none

/-- The scanning loop of `re.sub` for the pattern `\b[A-Z][a-zA-Z]*\b` with
the `_preserve_term` replacement: `pres` is the list of preserved terms so
far, `prevWord` records whether the previous character is a word character
(so the boundary `\b` holds at the current position iff `prevWord = false`).
Returns the substituted text and the extended preserved list. -/
def subCapGo (pres : List (List Char)) (prevWord : Bool) (t : List Char) :
    List Char × List (List Char) :=
  match t with
  | [] => ([], pres)
  | c :: cs =>
    if prevWord then
      let out := subCapGo pres (isWordChar c) cs
      (c :: out.1, out.2)
    else
      match h : capMatch (c :: cs) with
      | some (run, rest) =>
        let out := subCapGo (pres ++ [run]) true rest
        (marker pres.length ++ out.1, out.2)
      | none =>
        let out := subCapGo pres (isWordChar c) cs
        (c :: out.1, out.2)
  termination_by t.length
  decreasing_by
  · simp only [List.length_cons]; omega
  · simp only [capMatch] at h
    by_cases hu : isUpperLatin c = true
    · rw [if_pos hu] at h
      have hlat : isLatinLetter c = true := by
        simp only [isUpperLatin, Bool.and_eq_true, decide_eq_true_eq] at hu
        simp only [isLatinLetter, Bool.or_eq_true, Bool.and_eq_true,
          decide_eq_true_eq]
        exact Or.inl hu
      rw [List.dropWhile_cons_of_pos hlat] at h
      split at h
      · simp only [Option.some.injEq, Prod.mk.injEq] at h
        rw [← h.2]
        simp only [List.length_nil, List.length_cons]
        omega
      · split at h
        · exact absurd h (by simp)
        · simp only [Option.some.injEq, Prod.mk.injEq] at h
          rename_i d ds hdw hwd
          have h1 : rest.length ≤ cs.length := by
            rw [← h.2, ← hdw]
            exact (List.dropWhile_sublist isLatinLetter).length_le
          simp only [List.length_cons]
          omega
    · rw [if_neg hu] at h
      exact absurd h (by simp)
  · simp only [List.length_cons]; omega

/-- The group loop of one attempted match of `\b\d+(?: sep \d+)*\b` (sep one of hyphen, slash, dot):
`acc` is the text matched so far (ending in a digit).  Greedily absorbs
groups "separator then digits"; at the end the trailing `\b` holds iff the
next character is absent or not a word character, and when it fails the
regex engine backtracks by giving back the last group (the preceding
separator is not a word character, so the boundary then holds); giving back
digits inside a run can never help, which is the `none` result. -/
def numGroups (acc : List Char) (t : List Char) :
    Option (List Char × List Char) :=
  match t with
  | [] => some (acc, [])
  | c :: cs =>
    if c = '-' || c = '/' || c = '.' then
      match cs with
      | [] => some (acc, [c])
      | d :: ds =>
        if pyDigit d then
          match numGroups (acc ++ c :: (d :: ds).takeWhile pyDigit)
              ((d :: ds).dropWhile pyDigit) with
          | some r => some r
          | none => some (acc, c :: d :: ds)
        else some (acc, c :: d :: ds)
    else if isWordChar c then none
    else some (acc, c :: cs)
  termination_by t.length
  decreasing_by
    simp only [List.length_cons]
    exact Nat.lt_succ_of_le (le_trans (List.dropWhile_sublist pyDigit).length_le
      (le_of_eq (by simp only [List.length_cons])))

/-- One attempted match of `\b\d+(?: sep \d+)*\b` (sep one of hyphen, slash, dot) at the head of `t` (left
boundary already checked by the caller). -/
def numMatch (t : List Char) : Option (List Char × List Char) :=
  match t with
  | [] => none
  | c :: _ =>
    if pyDigit c then numGroups (t.takeWhile pyDigit) (t.dropWhile pyDigit)
    else none

/-- The scanning loop of `re.sub` for the number/date pattern, with the same
`_preserve_term` replacement protocol as `subCapGo`. -/
def subNumGo (pres : List (List Char)) (prevWord : Bool) (t : List Char) :
    List Char × List (List Char) :=
  match t with
  | [] => ([], pres)
  | c :: cs =>
    if prevWord then
      let out := subNumGo pres (isWordChar c) cs
      (c :: out.1, out.2)
    else
      match h : numMatch (c :: cs) with
      | some (run, rest) =>
        let out := subNumGo (pres ++ [run]) true rest
        (marker pres.length ++ out.1, out.2)
      | none =>
        let out := subNumGo pres (isWordChar c) cs
        (c :: out.1, out.2)
  termination_by t.length
  decreasing_by
  · simp only [List.length_cons]; omega
  · simp only [numMatch] at h
    by_cases hd : pyDigit c = true
    · rw [if_pos hd] at h
      have key : ∀ (acc s m r : List Char),
          numGroups acc s = some (m, r) → r.length ≤ s.length := by
        intro acc s
        induction acc, s using numGroups.induct with
        | case1 acc =>
          intro m r h2
          unfold numGroups at h2
          simp only [Option.some.injEq, Prod.mk.injEq] at h2
          obtain ⟨hA, hB⟩ := h2
          cases hB
          simp
        | case2 acc c hsep =>
          intro m r h2
          unfold numGroups at h2
          simp only [hsep, if_true] at h2
          simp only [Option.some.injEq, Prod.mk.injEq] at h2
          obtain ⟨hA, hB⟩ := h2
          cases hB
          simp
        | case3 acc c hsep c1 cs hdig r2 hrec ih =>
          obtain ⟨m2, rr⟩ := r2
          intro m r h2
          unfold numGroups at h2
          simp only [hsep, hdig, hrec, if_true] at h2
          simp only [Option.some.injEq, Prod.mk.injEq] at h2
          obtain ⟨hA, hB⟩ := h2
          cases hB
          have h3 : (List.dropWhile pyDigit (c1 :: cs)).length ≤ (c1 :: cs).length :=
            (List.dropWhile_sublist pyDigit).length_le
          have h4 := ih m2 rr hrec
          simp only [List.length_cons] at *
          omega
        | case4 acc c hsep c1 cs hdig hrec ih =>
          intro m r h2
          unfold numGroups at h2
          simp only [hsep, hdig, hrec, if_true] at h2
          simp only [Option.some.injEq, Prod.mk.injEq] at h2
          obtain ⟨hA, hB⟩ := h2
          cases hB
          simp
        | case5 acc c hsep c1 cs hdig =>
          intro m r h2
          unfold numGroups at h2
          simp only [hsep, hdig, if_true, if_false, Bool.false_eq_true] at h2
          simp only [Option.some.injEq, Prod.mk.injEq] at h2
          obtain ⟨hA, hB⟩ := h2
          cases hB
          simp
        | case6 acc c cs hsep hw =>
          intro m r h2
          unfold numGroups at h2
          simp only [hsep, hw, if_true, if_false, Bool.false_eq_true] at h2
          exact absurd h2 (by simp)
        | case7 acc c cs hsep hw =>
          intro m r h2
          unfold numGroups at h2
          simp only [hsep, hw, if_true, if_false, Bool.false_eq_true] at h2
          simp only [Option.some.injEq, Prod.mk.injEq] at h2
          obtain ⟨hA, hB⟩ := h2
          cases hB
          simp
      have h5 : rest.length ≤ ((c :: cs).dropWhile pyDigit).length :=
        key _ _ _ _ h
      rw [List.dropWhile_cons_of_pos hd] at h5
      have h6 : (cs.dropWhile pyDigit).length ≤ cs.length :=
        (List.dropWhile_sublist pyDigit).length_le
      simp only [List.length_cons]
      omega
    · rw [if_neg hd] at h
      exact absurd h (by simp)
  · simp only [List.length_cons]; omega

/-- `HinglishTranslator.preserve_special_terms`: first substitute capitalized
words, then (continuing the index sequence, on the already-substituted text)
numbers and dates. -/
def preserve_special_terms (t : List Char) : List Char × List (List Char) :=
  let r1 := subCapGo [] false t
  let r2 := subNumGo r1.2 false r1.1
  (r2.1, r2.2)

/-- Python `str.replace`: replace every (leftmost, non-overlapping)
occurrence of `pat` by `rep`.  The source only ever calls it with the
non-empty pattern `PRESERVED_<i>`; the `pat = []` guard merely keeps the
function total. -/
def pyReplace (t pat rep : List Char) : List Char :=
  match t with
  | [] => []
  | c :: cs =>
    if h : pat ≠ [] ∧ pat.isPrefixOf (c :: cs) then
      rep ++ pyReplace ((c :: cs).drop pat.length) pat rep
    else c :: pyReplace cs pat rep
  termination_by t.length
  decreasing_by
  · have hlen : 0 < pat.length := List.length_pos.mpr h.1
    simp only [List.length_drop, List.length_cons]
    omega
  · simp only [List.length_cons]; omega

/-- The loop of `HinglishTranslator.restore_preserved_terms`: replace
`PRESERVED_i` by the i-th preserved term, in index order. -/
def restoreGo (i : Nat) (preserved : List (List Char)) (text : List Char) :
    List Char :=
  match preserved with
  | [] => text
  | term :: rest => restoreGo (i + 1) rest (pyReplace text (marker i) term)

/-- `HinglishTranslator.restore_preserved_terms`. -/
def restore_preserved_terms (text : List Char) (preserved : List (List Char)) :
    List Char :=
  restoreGo 0 preserved text

/-- One request to the external translation collaborator. -/
structure SvcCall where
  text : List Char
  src : List Char
  tgt : List Char
deriving DecidableEq

/-- Source language tag `auto`. -/
def srcAuto : List Char := "auto".toList

/-- Language tag `hi`. -/
def langHi : List Char := "hi".toList

/-- Language tag `en`. -/
def langEn : List Char := "en".toList

/-- The fixed user-visible failure message returned by `translate` when an
exception is caught. -/
def failMsg : List Char := "Translation failed. Please try again.".toList

/-- A Python exception value as far as this program observes it. -/
inductive PyErr where
  | serviceError (msg : List Char)
  | otherExc (msg : List Char)
deriving DecidableEq

/-- The per-sentence routing inside `HinglishTranslator.translate`
(the `if has_hindi and has_english / elif has_hindi / else` ladder),
instrumented with the list of service calls made.  The three translator
objects of the source are the configurations (auto→hi), (hi→en), (auto→en). -/
def routeSentence {ε : Type} (svc : SvcCall → Except ε (List Char))
    (s : List Char) : Except ε (List Char) × List SvcCall :=
  let d := detect_language_mix s
  if d.1 && d.2 then
    match svc ⟨s, srcAuto, langHi⟩ with
    | .error e => (.error e, [⟨s, srcAuto, langHi⟩])
    | .ok h => (svc ⟨h, langHi, langEn⟩, [⟨s, srcAuto, langHi⟩, ⟨h, langHi, langEn⟩])
  else if d.1 then
    (svc ⟨s, langHi, langEn⟩, [⟨s, langHi, langEn⟩])
  else
    (svc ⟨s, srcAuto, langEn⟩, [⟨s, srcAuto, langEn⟩])

/-- The sentence loop of `translate`: skip whitespace-only sentences, route
the rest in order, stopping at the first raised error (exception semantics).
Returns the per-sentence results and the calls made. -/
def translateLoop {ε : Type} (svc : SvcCall → Except ε (List Char)) :
    List (List Char) → Except ε (List (List Char)) × List SvcCall
  | [] => (.ok [], [])
  | s :: ss =>
    if pyStrip s = [] then translateLoop svc ss
    else
      match routeSentence svc s with
      | (.error e, cs) => (.error e, cs)
      | (.ok r, cs) =>
        let rest := translateLoop svc ss
        (rest.1.map (fun parts => r :: parts), cs ++ rest.2)

/-- The body of `HinglishTranslator.translate` (the `try` block), plus the
call log: empty-or-whitespace input short-circuits to the empty string with
no calls; otherwise segment, route each non-blank sentence, and join the
results with a single space. -/
def translateRun {ε : Type} (svc : SvcCall → Except ε (List Char))
    (t : List Char) : Except ε (List Char) × List SvcCall :=
  if pyStrip t = [] then (.ok [], [])
  else
    match translateLoop svc (split_sentences t) with
    | (.ok parts, cs) => (.ok (List.intercalate [' '] parts), cs)
    | (.error e, cs) => (.error e, cs)

/-- `HinglishTranslator.translate`: the `try/except` wrapper — any error
raised inside the body is caught and replaced by the fixed failure
message. -/
def translate {ε : Type} (svc : SvcCall → Except ε (List Char))
    (t : List Char) : List Char :=
  match (translateRun svc t).1 with
  | .ok r => r
  | .error _ => failMsg

/-- The calls `translate` makes to the external collaborator. -/
def translateCalls {ε : Type} (svc : SvcCall → Except ε (List Char))
    (t : List Char) : List SvcCall :=
  (translateRun svc t).2

/-! ### Structurally recursive (fuel-indexed) twins

The scanners above use well-founded recursion, which the kernel cannot
evaluate by reduction.  The following twins recurse structurally on a fuel
argument and are proved equal to the originals whenever the fuel is at
least the input length; all concrete evaluations go through them. -/

/-- Fuel-indexed twin of `numGroups`. -/
def numGroupsF : Nat → List Char → List Char → Option (List Char × List Char)
  | _, acc, [] => some (acc, [])
  | 0, _, _ :: _ => none
  | fuel + 1, acc, c :: cs =>
    if c = '-' || c = '/' || c = '.' then
      match cs with
      | [] => some (acc, [c])
      | d :: ds =>
        if pyDigit d then
          match numGroupsF fuel (acc ++ c :: (d :: ds).takeWhile pyDigit)
              ((d :: ds).dropWhile pyDigit) with
          | some r => some r
          | none => some (acc, c :: d :: ds)
        else some (acc, c :: d :: ds)
    else if isWordChar c then none
    else some (acc, c :: cs)

/-- Fuel-indexed twin of `numMatch`. -/
def numMatchF (fuel : Nat) (t : List Char) : Option (List Char × List Char) :=
  match t with
  | [] => none
  | c :: _ =>
    if pyDigit c then numGroupsF fuel (t.takeWhile pyDigit) (t.dropWhile pyDigit)
    else none

/-- Fuel-indexed twin of `subCapGo`. -/
def subCapGoF : Nat → List (List Char) → Bool → List Char →
    List Char × List (List Char)
  | _, pres, _, [] => ([], pres)
  | 0, pres, _, _ :: _ => ([], pres)
  | fuel + 1, pres, prevWord, c :: cs =>
    if prevWord then
      let out := subCapGoF fuel pres (isWordChar c) cs
      (c :: out.1, out.2)
    else
      match capMatch (c :: cs) with
      | some (run, rest) =>
        let out := subCapGoF fuel (pres ++ [run]) true rest
        (marker pres.length ++ out.1, out.2)
      | none =>
        let out := subCapGoF fuel pres (isWordChar c) cs
        (c :: out.1, out.2)

/-- Fuel-indexed twin of `subNumGo`. -/
def subNumGoF : Nat → List (List Char) → Bool → List Char →
    List Char × List (List Char)
  | _, pres, _, [] => ([], pres)
  | 0, pres, _, _ :: _ => ([], pres)
  | fuel + 1, pres, prevWord, c :: cs =>
    if prevWord then
      let out := subNumGoF fuel pres (isWordChar c) cs
      (c :: out.1, out.2)
    else
      match numMatchF (fuel + 1) (c :: cs) with
      | some (run, rest) =>
        let out := subNumGoF fuel (pres ++ [run]) true rest
        (marker pres.length ++ out.1, out.2)
      | none =>
        let out := subNumGoF fuel pres (isWordChar c) cs
        (c :: out.1, out.2)

/-- Fuel-indexed twin of `pyReplace`. -/
def pyReplaceF : Nat → List Char → List Char → List Char → List Char
  | _, [], _, _ => []
  | 0, _ :: _, _, _ => []
  | fuel + 1, c :: cs, pat, rep =>
    if pat ≠ [] ∧ pat.isPrefixOf (c :: cs) then
      rep ++ pyReplaceF fuel ((c :: cs).drop pat.length) pat rep
    else c :: pyReplaceF fuel cs pat rep

/-- Twin of `preserve_special_terms` built from the fuel-indexed scanners. -/
def preserveF (t : List Char) : List Char × List (List Char) :=
  let r1 := subCapGoF t.length [] false t
  let r2 := subNumGoF r1.1.length r1.2 false r1.1
  (r2.1, r2.2)

/-- Twin of `restoreGo` built from the fuel-indexed replacer. -/
def restoreGoF (i : Nat) (preserved : List (List Char)) (text : List Char) :
    List Char :=
  match preserved with
  | [] => text
  | term :: rest =>
    restoreGoF (i + 1) rest (pyReplaceF text.length text (marker i) term)

/-! ### The routing decision table and the per-claim pipelines,
written from the specification's words, to be compared with the code. -/

/-- Spec decision table, row `has_hindi ∧ has_english`: translate the
sentence to Hindi with auto-detected source, then that result to English. -/
def pathMixed {ε : Type} (svc : SvcCall → Except ε (List Char))
    (s : List Char) : Except ε (List Char) × List SvcCall :=
  match svc ⟨s, srcAuto, langHi⟩ with
  | .error e => (.error e, [⟨s, srcAuto, langHi⟩])
  | .ok h => (svc ⟨h, langHi, langEn⟩,
      [⟨s, srcAuto, langHi⟩, ⟨h, langHi, langEn⟩])

/-- Spec decision table, row `has_hindi ∧ ¬has_english`: translate directly
from Hindi to English. -/
def pathHindi {ε : Type} (svc : SvcCall → Except ε (List Char))
    (s : List Char) : Except ε (List Char) × List SvcCall :=
  (svc ⟨s, langHi, langEn⟩, [⟨s, langHi, langEn⟩])

/-- Spec decision table, row `¬has_hindi`: translate directly to English
with auto-detected source. -/
def pathOther {ε : Type} (svc : SvcCall → Except ε (List Char))
    (s : List Char) : Except ε (List Char) × List SvcCall :=
  (svc ⟨s, srcAuto, langEn⟩, [⟨s, srcAuto, langEn⟩])

/-- The router as the specification's decision table states it: the path is
chosen exactly by the script-detector output. -/
def route_spec {ε : Type} (svc : SvcCall → Except ε (List Char))
    (s : List Char) : Except ε (List Char) × List SvcCall :=
  match detect_language_mix s with
  | (true, true) => pathMixed svc s
  | (true, false) => pathHindi svc s
  | (false, _) => pathOther svc s

/-- The per-sentence pipeline exactly as claim C1 states it: detect, apply
term preservation to the sentence, route the masked sentence to the external
collaborator, then restore the preserved terms into the translated result. -/
def claimSentence {ε : Type} (svc : SvcCall → Except ε (List Char))
    (s : List Char) : Except ε (List Char) :=
  let d := detect_language_mix s
  let p := preserve_special_terms s
  let routed : Except ε (List Char) :=
    if d.1 && d.2 then
      match svc ⟨p.1, srcAuto, langHi⟩ with
      | .error e => .error e
      | .ok h => svc ⟨h, langHi, langEn⟩
    else if d.1 then svc ⟨p.1, langHi, langEn⟩
    else svc ⟨p.1, srcAuto, langEn⟩
  match routed with
  | .error e => .error e
  | .ok r => .ok (restore_preserved_terms r p.2)

/-- The sentence loop of the pipeline claim C1 describes. -/
def claimLoop {ε : Type} (svc : SvcCall → Except ε (List Char)) :
    List (List Char) → Except ε (List (List Char))
  | [] => .ok []
  | s :: ss =>
    if pyStrip s = [] then claimLoop svc ss
    else
      match claimSentence svc s with
      | .error e => .error e
      | .ok r => (claimLoop svc ss).map (fun parts => r :: parts)

/-- The orchestrator pipeline exactly as claim C1 states it. -/
def claimPipeline {ε : Type} (svc : SvcCall → Except ε (List Char))
    (t : List Char) : List Char :=
  if pyStrip t = [] then []
  else
    match claimLoop svc (split_sentences t) with
    | .ok parts => List.intercalate [' '] parts
    | .error _ => failMsg

/-- The per-sentence step of the amended claim C1: route the sentence itself
(no preservation, no restoration), by the detected script mix. -/
def amendedLoop {ε : Type} (svc : SvcCall → Except ε (List Char)) :
    List (List Char) → Except ε (List (List Char))
  | [] => .ok []
  | s :: ss =>
    if pyStrip s = [] then amendedLoop svc ss
    else
      match (route_spec svc s).1 with
      | .error e => .error e
      | .ok r => (amendedLoop svc ss).map (fun parts => r :: parts)

/-- The orchestrator pipeline as amended for claim C1: segment, route each
non-whitespace sentence directly (no term preservation), join the results
with a single space; empty and whitespace-only input yields the empty
string; a raised service error yields the fixed failure message. -/
def amendedPipeline {ε : Type} (svc : SvcCall → Except ε (List Char))
    (t : List Char) : List Char :=
  if pyStrip t = [] then []
  else
    match amendedLoop svc (split_sentences t) with
    | .ok parts => List.intercalate [' '] parts
    | .error _ => failMsg

/-- The shape claim C3 ascribes to the segmenter's output: every span is
non-empty and contains no terminator before its last character, and every
span except possibly the last ends with a terminator (the last span is the
trailing text, terminated or not). -/
def wellSeg : List (List Char) → Prop
  | [] => True
  | s :: rest =>
    s ≠ [] ∧ (∀ c ∈ s.dropLast, isTerminator c = false) ∧
    (rest = [] ∨ ∃ c, s.getLast? = some c ∧ isTerminator c = true) ∧
    wellSeg rest


/-! ### Machinery for the preservation/restoration round trip

The masked text is viewed as an interleaving of literal stretches and
placeholder slots; restoration is analysed as a walk of `pyReplace` over
that interleaving. -/

/-- The literal `PRESERVED` (the placeholder stem without the underscore). -/
def pres9 : List Char := "PRESERVED".toList

/-- The literal `PRESERVED_`. -/
def pres10 : List Char := "PRESERVED_".toList

/-- A segment of the masked text: either a literal stretch carried over
verbatim, or a slot where the term `term` was replaced by the placeholder
of index `idx`. -/
inductive Seg where
  | lit (s : List Char)
  | slot (idx : Nat) (term : List Char)

/-- Render a segment list with the slots of index below `cut` already
restored to their terms, the others still showing their placeholder. -/
def renderCut (cut : Nat) : List Seg → List Char
  | [] => []
  | .lit s :: L => s ++ renderCut cut L
  | .slot j term :: L =>
    (if j < cut then term else marker j) ++ renderCut cut L

/-- The slot indices of a segment list, in order of position. -/
def slotIdxs : List Seg → List Nat
  | [] => []
  | .lit _ :: L => slotIdxs L
  | .slot j _ :: L => j :: slotIdxs L

/-- Render the tail of an alternation view: placeholder, stretch,
placeholder, stretch, ... -/
def altTail : List (Nat × List Char) → List Char
  | [] => []
  | (j, s) :: rest => marker j ++ s ++ altTail rest

/-- The alternation view of `renderCut cut L`: the leading literal stretch
and the following (placeholder index, following literal stretch) blocks. -/
def altOf (cut : Nat) : List Seg → List Char × List (Nat × List Char)
  | [] => ([], [])
  | .lit s :: L =>
    let a := altOf cut L
    (s ++ a.1, a.2)
  | .slot j term :: L =>
    let a := altOf cut L
    if j < cut then (term ++ a.1, a.2)
    else ([], (j, a.1) :: a.2)

/-- Reassemble the original text from the (chunk, matched term) pairs of a
scanning pass and the trailing chunk. -/
def origOf : List (List Char × List Char) → List Char → List Char
  | [], tail => tail
  | (c, m) :: ps, tail => c ++ m ++ origOf ps tail

/-- Reassemble the masked text of a scanning pass: each matched term is
replaced by the placeholder of the next index starting from `k`. -/
def maskedOf (k : Nat) : List (List Char × List Char) → List Char → List Char
  | [], tail => tail
  | (c, _) :: ps, tail => c ++ marker k ++ maskedOf (k + 1) ps tail

/-- The segment list of a single scanning pass over plain text: chunks are
literal, terms become slots numbered consecutively from `k`. -/
def segsOfNum (k : Nat) : List (List Char × List Char) → List Char → List Seg
  | [], tail => [.lit tail]
  | (c, m) :: ps, tail => .lit c :: .slot k m :: segsOfNum (k + 1) ps tail

/-- A chunk is empty or ends with a non-word character (the state of the
character before a regex match, by its left word boundary). -/
def endsNonWord (s : List Char) : Prop :=
  s = [] ∨ ∃ z, s.getLast? = some z ∧ isWordChar z = false

/-- No occurrence of `pat` starts strictly inside `A` when `A` is followed
by `R`: the scanning of `pyReplace` walks over `A` untouched. -/
def NoInnerOcc (pat A R : List Char) : Prop :=
  ∀ A₂, A₂ ≠ [] → A₂ <:+ A → ¬ pat.isPrefixOf (A₂ ++ R)

/-- The scanner state (previous character is a word character) after
walking over `σ` entered with state `pw`. -/
def pwExit (σ : List Char) (pw : Bool) : Bool :=
  match σ.getLast? with
  | none => pw
  | some z => isWordChar z

/-- Lists ending with a decimal digit. -/
def endsDigit (l : List Char) : Prop :=
  ∃ z, l.getLast? = some z ∧ pyDigit z = true

/-! ### Theorems -/

theorem capMatch_length {t run rest : List Char}
    (h : capMatch t = some (run, rest)) : rest.length < t.length := by
  rcases t with _ | ⟨c, cs⟩
  · simp [capMatch] at h
  · simp only [capMatch] at h
    by_cases hu : isUpperLatin c = true
    · rw [if_pos hu] at h
      have hlat : isLatinLetter c = true := by
        simp only [isUpperLatin, Bool.and_eq_true, decide_eq_true_eq] at hu
        simp only [isLatinLetter, Bool.or_eq_true, Bool.and_eq_true,
          decide_eq_true_eq]
        exact Or.inl hu
      rw [List.dropWhile_cons_of_pos hlat] at h
      split at h
      · simp only [Option.some.injEq, Prod.mk.injEq] at h
        obtain ⟨h1, h2⟩ := h
        cases h2
        simp
      · split at h
        · exact absurd h (by simp)
        · simp only [Option.some.injEq, Prod.mk.injEq] at h
          obtain ⟨h1, h2⟩ := h
          rename_i d ds hdw hwd
          have h3 : rest.length ≤ cs.length := by
            rw [← h2, ← hdw]
            exact (List.dropWhile_sublist isLatinLetter).length_le
          simp only [List.length_cons]
          omega
    · rw [if_neg hu] at h
      exact absurd h (by simp)

theorem numGroups_rest_le {acc s m r : List Char}
    (h : numGroups acc s = some (m, r)) : r.length ≤ s.length := by
  induction acc, s using numGroups.induct generalizing m r with
  | case1 acc =>
    unfold numGroups at h
    simp only [Option.some.injEq, Prod.mk.injEq] at h
    obtain ⟨hA, hB⟩ := h
    cases hB
    simp
  | case2 acc c hsep =>
    unfold numGroups at h
    simp only [hsep, if_true] at h
    simp only [Option.some.injEq, Prod.mk.injEq] at h
    obtain ⟨hA, hB⟩ := h
    cases hB
    simp
  | case3 acc c hsep c1 cs hdig r2 hrec ih =>
    obtain ⟨m2, rr⟩ := r2
    unfold numGroups at h
    simp only [hsep, hdig, hrec, if_true] at h
    simp only [Option.some.injEq, Prod.mk.injEq] at h
    obtain ⟨hA, hB⟩ := h
    cases hB
    have h3 : (List.dropWhile pyDigit (c1 :: cs)).length ≤ (c1 :: cs).length :=
      (List.dropWhile_sublist pyDigit).length_le
    have h4 := ih hrec
    simp only [List.length_cons] at *
    omega
  | case4 acc c hsep c1 cs hdig hrec ih =>
    unfold numGroups at h
    simp only [hsep, hdig, hrec, if_true] at h
    simp only [Option.some.injEq, Prod.mk.injEq] at h
    obtain ⟨hA, hB⟩ := h
    cases hB
    simp
  | case5 acc c hsep c1 cs hdig =>
    unfold numGroups at h
    simp only [hsep, hdig, if_true, if_false, Bool.false_eq_true] at h
    simp only [Option.some.injEq, Prod.mk.injEq] at h
    obtain ⟨hA, hB⟩ := h
    cases hB
    simp
  | case6 acc c cs hsep hw =>
    unfold numGroups at h
    simp only [hsep, hw, if_true, if_false, Bool.false_eq_true] at h
    exact absurd h (by simp)
  | case7 acc c cs hsep hw =>
    unfold numGroups at h
    simp only [hsep, hw, if_true, if_false, Bool.false_eq_true] at h
    simp only [Option.some.injEq, Prod.mk.injEq] at h
    obtain ⟨hA, hB⟩ := h
    cases hB
    simp

theorem numMatch_length {t run rest : List Char}
    (h : numMatch t = some (run, rest)) : rest.length < t.length := by
  rcases t with _ | ⟨c, cs⟩
  · simp [numMatch] at h
  · simp only [numMatch] at h
    by_cases hd : pyDigit c = true
    · rw [if_pos hd] at h
      have h5 : rest.length ≤ ((c :: cs).dropWhile pyDigit).length :=
        numGroups_rest_le h
      rw [List.dropWhile_cons_of_pos hd] at h5
      have h6 : (cs.dropWhile pyDigit).length ≤ cs.length :=
        (List.dropWhile_sublist pyDigit).length_le
      simp only [List.length_cons]
      omega
    · rw [if_neg hd] at h
      exact absurd h (by simp)

theorem numGroupsF_eq (fuel : Nat) :
    ∀ (acc t : List Char), t.length ≤ fuel →
      numGroupsF fuel acc t = numGroups acc t := by
  induction fuel with
  | zero =>
    intro acc t ht
    have hnil : t = [] := List.eq_nil_of_length_eq_zero (Nat.le_zero.mp ht)
    subst hnil
    simp [numGroupsF, numGroups]
  | succ fuel ih =>
    intro acc t ht
    rcases t with _ | ⟨c, cs⟩
    · simp [numGroupsF, numGroups]
    · rcases cs with _ | ⟨d, ds⟩
      · simp [numGroupsF, numGroups]
      · have hb : ((d :: ds).dropWhile pyDigit).length ≤ fuel := by
          have h3 : (List.dropWhile pyDigit (d :: ds)).length ≤ (d :: ds).length :=
            (List.dropWhile_sublist pyDigit).length_le
          simp only [List.length_cons] at ht h3 ⊢
          omega
        have hih := ih (acc ++ c :: (d :: ds).takeWhile pyDigit)
          ((d :: ds).dropWhile pyDigit) hb
        simp only [numGroupsF, hih]
        conv_rhs => rw [numGroups]

theorem numMatchF_eq (fuel : Nat) (t : List Char) (ht : t.length ≤ fuel) :
    numMatchF fuel t = numMatch t := by
  rcases t with _ | ⟨c, cs⟩
  · simp [numMatchF, numMatch]
  · simp only [numMatchF, numMatch]
    have hb : ((c :: cs).dropWhile pyDigit).length ≤ fuel := by
      have h3 : (List.dropWhile pyDigit (c :: cs)).length ≤ (c :: cs).length :=
        (List.dropWhile_sublist pyDigit).length_le
      omega
    rw [numGroupsF_eq fuel _ _ hb]

theorem subCapGoF_eq (fuel : Nat) :
    ∀ (pres : List (List Char)) (prevWord : Bool) (t : List Char),
      t.length ≤ fuel → subCapGoF fuel pres prevWord t = subCapGo pres prevWord t := by
  induction fuel with
  | zero =>
    intro pres prevWord t ht
    have hnil : t = [] := List.eq_nil_of_length_eq_zero (Nat.le_zero.mp ht)
    subst hnil
    simp [subCapGoF, subCapGo]
  | succ fuel ih =>
    intro pres prevWord t ht
    rcases t with _ | ⟨c, cs⟩
    · simp [subCapGoF, subCapGo]
    · simp only [List.length_cons] at ht
      rcases prevWord with _ | _
      · rcases hm : capMatch (c :: cs) with _ | ⟨run, rest⟩
        · rw [subCapGoF, subCapGo]
          simp only [if_neg Bool.false_ne_true, hm]
          rw [ih pres (isWordChar c) cs (by omega)]
          split
          · rename_i run2 rest2 heq
            rw [hm] at heq
            simp at heq
          · rfl
        · have hlen : rest.length ≤ fuel := by
            have := capMatch_length hm
            simp only [List.length_cons] at this
            omega
          rw [subCapGoF, subCapGo]
          simp only [if_neg Bool.false_ne_true, hm]
          rw [ih (pres ++ [run]) true rest hlen]
          split
          · rename_i run2 rest2 heq
            rw [hm] at heq
            simp only [Option.some.injEq, Prod.mk.injEq] at heq
            obtain ⟨h1, h2⟩ := heq
            subst h1
            subst h2
            rfl
          · rename_i heq
            rw [hm] at heq
            simp at heq
      · rw [subCapGoF, subCapGo]
        rw [ih pres (isWordChar c) cs (by omega)]
        simp

theorem subNumGoF_eq (fuel : Nat) :
    ∀ (pres : List (List Char)) (prevWord : Bool) (t : List Char),
      t.length ≤ fuel → subNumGoF fuel pres prevWord t = subNumGo pres prevWord t := by
  induction fuel with
  | zero =>
    intro pres prevWord t ht
    have hnil : t = [] := List.eq_nil_of_length_eq_zero (Nat.le_zero.mp ht)
    subst hnil
    simp [subNumGoF, subNumGo]
  | succ fuel ih =>
    intro pres prevWord t ht
    rcases t with _ | ⟨c, cs⟩
    · simp [subNumGoF, subNumGo]
    · simp only [List.length_cons] at ht
      rcases prevWord with _ | _
      · rcases hm : numMatch (c :: cs) with _ | ⟨run, rest⟩
        · rw [subNumGoF, subNumGo]
          rw [numMatchF_eq (fuel + 1) (c :: cs) (by simp only [List.length_cons]; omega)]
          simp only [if_neg Bool.false_ne_true, hm]
          rw [ih pres (isWordChar c) cs (by omega)]
          split
          · rename_i run2 rest2 heq
            rw [hm] at heq
            simp at heq
          · rfl
        · have hlen : rest.length ≤ fuel := by
            have := numMatch_length hm
            simp only [List.length_cons] at this
            omega
          rw [subNumGoF, subNumGo]
          rw [numMatchF_eq (fuel + 1) (c :: cs) (by simp only [List.length_cons]; omega)]
          simp only [if_neg Bool.false_ne_true, hm]
          rw [ih (pres ++ [run]) true rest hlen]
          split
          · rename_i run2 rest2 heq
            rw [hm] at heq
            simp only [Option.some.injEq, Prod.mk.injEq] at heq
            obtain ⟨h1, h2⟩ := heq
            subst h1
            subst h2
            rfl
          · rename_i heq
            rw [hm] at heq
            simp at heq
      · rw [subNumGoF, subNumGo]
        rw [ih pres (isWordChar c) cs (by omega)]
        simp

theorem pyReplaceF_eq (fuel : Nat) :
    ∀ (t pat rep : List Char), t.length ≤ fuel →
      pyReplaceF fuel t pat rep = pyReplace t pat rep := by
  induction fuel with
  | zero =>
    intro t pat rep ht
    have hnil : t = [] := List.eq_nil_of_length_eq_zero (Nat.le_zero.mp ht)
    subst hnil
    simp [pyReplaceF, pyReplace]
  | succ fuel ih =>
    intro t pat rep ht
    rcases t with _ | ⟨c, cs⟩
    · simp [pyReplaceF, pyReplace]
    · simp only [List.length_cons] at ht
      by_cases hc : pat ≠ [] ∧ pat.isPrefixOf (c :: cs)
      · rw [pyReplaceF, pyReplace]
        rw [dif_pos hc, if_pos hc]
        have hlen : ((c :: cs).drop pat.length).length ≤ fuel := by
          have hp : 0 < pat.length := List.length_pos.mpr hc.1
          simp only [List.length_drop, List.length_cons]
          omega
        rw [ih _ pat rep hlen]
      · rw [pyReplaceF, pyReplace]
        rw [dif_neg hc, if_neg hc]
        rw [ih cs pat rep (by omega)]

theorem preserveF_eq (t : List Char) : preserve_special_terms t = preserveF t := by
  have h1 := subCapGoF_eq t.length [] false t (Nat.le_refl _)
  have h2 := subNumGoF_eq (subCapGo [] false t).1.length (subCapGo [] false t).2
    false (subCapGo [] false t).1 (Nat.le_refl _)
  unfold preserve_special_terms preserveF
  simp only [h1, h2]

theorem restoreGoF_eq : ∀ (preserved : List (List Char)) (i : Nat) (text : List Char),
    restoreGo i preserved text = restoreGoF i preserved text := by
  intro preserved
  induction preserved with
  | nil => intro i text; simp [restoreGo, restoreGoF]
  | cons term rest ih =>
    intro i text
    rw [restoreGo, restoreGoF]
    rw [pyReplaceF_eq text.length text (marker i) term (Nat.le_refl _)]
    exact ih _ _

theorem restoreF_eq (text : List Char) (preserved : List (List Char)) :
    restore_preserved_terms text preserved = restoreGoF 0 preserved text := by
  unfold restore_preserved_terms
  exact restoreGoF_eq preserved 0 text

/-- Concatenating the output of the segmenter's loop restores the
accumulator followed by the input. -/
theorem splitGo_join : ∀ (t current : List Char),
    (splitGo current t).join = current ++ t := by
  intro t
  induction t with
  | nil =>
    intro current
    by_cases h : current = []
    · simp [splitGo, h]
    · simp [splitGo, h]
  | cons c cs ih =>
    intro current
    by_cases h : isTerminator c = true
    · simp only [splitGo, h, if_true, List.join_cons, ih []]
      simp
    · simp only [splitGo, h, if_false, Bool.false_eq_true, ih (current ++ [c])]
      simp

/-- The segmenter's loop emits well-shaped spans whenever the accumulator is
terminator-free. -/
theorem splitGo_wellSeg : ∀ (t current : List Char),
    (∀ c ∈ current, isTerminator c = false) → wellSeg (splitGo current t) := by
  intro t
  induction t with
  | nil =>
    intro current hcur
    by_cases h : current = []
    · simp [splitGo, h, wellSeg]
    · simp only [splitGo, h, if_neg]
      refine ⟨h, ?_, Or.inl rfl, trivial⟩
      intro c hc
      exact hcur c (List.dropLast_sublist current |>.mem hc)
  | cons c cs ih =>
    intro current hcur
    by_cases h : isTerminator c = true
    · simp only [splitGo, h, if_true]
      refine ⟨by simp, ?_, ?_, ih [] (by simp)⟩
      · intro x hx
        simp only [List.dropLast_concat] at hx
        exact hcur x hx
      · rcases hrest : splitGo [] cs with _ | ⟨s, ss⟩
        · exact Or.inl rfl
        · exact Or.inr ⟨c, List.getLast?_concat _, h⟩
    · simp only [splitGo, h, if_false, Bool.false_eq_true]
      refine ih (current ++ [c]) ?_
      intro x hx
      rcases List.mem_append.mp hx with hx | hx
      · exact hcur x hx
      · simp only [List.mem_singleton] at hx
        subst hx
        simpa using h

/-- C3: for every text, concatenating the spans emitted by
`split_sentences` reproduces the text exactly, and the segmenter closes a
span exactly at each occurrence of a character of the fixed terminator set
(the terminator included in its span), any trailing characters forming a
final span. -/
theorem C3_segmentation (t : List Char) :
    (split_sentences t).join = t ∧ wellSeg (split_sentences t) := by
  constructor
  · simpa using splitGo_join t []
  · exact splitGo_wellSeg t [] (by simp)

theorem pyStrip_eq_nil_iff {t : List Char} :
    pyStrip t = [] ↔ ∀ c ∈ t, pyIsSpace c = true := by
  unfold pyStrip
  rw [List.reverse_eq_nil_iff, List.dropWhile_eq_nil_iff]
  constructor
  · intro h c hc
    have hc2 : c ∈ t.takeWhile pyIsSpace ++ t.dropWhile pyIsSpace := by
      rw [List.takeWhile_append_dropWhile]
      exact hc
    rcases List.mem_append.mp hc2 with h1 | h1
    · exact List.mem_takeWhile_imp h1
    · exact h c (by simpa using h1)
  · intro h x hx
    rw [List.mem_reverse] at hx
    exact h x ((List.dropWhile_sublist pyIsSpace).subset hx)

/-- C6: for empty or whitespace-only input, `translate` returns the empty
string immediately and makes no call to the external collaborator. -/
theorem C6_blank_input {ε : Type} (svc : SvcCall → Except ε (List Char))
    (t : List Char) (h : ∀ c ∈ t, pyIsSpace c = true) :
    translate svc t = [] ∧ translateCalls svc t = [] := by
  have hb : pyStrip t = [] := pyStrip_eq_nil_iff.mpr h
  constructor <;> simp [translate, translateCalls, translateRun, hb]

theorem C6_blank_input_witness :
    translate (fun _ => Except.ok ([] : List Char) : SvcCall → Except PyErr (List Char))
        " ".toList = [] ∧
    translateCalls (fun _ => Except.ok ([] : List Char) : SvcCall → Except PyErr (List Char))
        " ".toList = [] :=
  C6_blank_input _ _ (by decide)

/-- C8: the script detector returns `(false, false)` on every empty or
whitespace-only span, and on the three concrete spans of the specification
returns the stated values; Hindi presence is a character in U+0900..U+097F,
English presence an ASCII letter. -/
theorem C8_detector :
    (∀ s : List Char, (∀ c ∈ s, pyIsSpace c = true) →
      detect_language_mix s = (false, false)) ∧
    detect_language_mix "राम".toList = (true, false) ∧
    detect_language_mix "Ram".toList = (false, true) ∧
    detect_language_mix "राम Ram".toList = (true, true) := by
  refine ⟨?_, by decide, by decide, by decide⟩
  intro s hs
  unfold detect_language_mix
  simp only [Prod.mk.injEq]
  constructor
  · rw [List.any_eq_false]
    intro x hx
    have h1 := hs x hx
    simp only [pyIsSpace, Bool.or_eq_true, Bool.and_eq_true,
      decide_eq_true_eq] at h1
    simp only [isDevanagari, Bool.and_eq_true, decide_eq_true_eq, not_and]
    omega
  · rw [List.any_eq_false]
    intro x hx
    have h1 := hs x hx
    simp only [pyIsSpace, Bool.or_eq_true, Bool.and_eq_true,
      decide_eq_true_eq] at h1
    simp only [isLatinLetter, Bool.or_eq_true, Bool.and_eq_true,
      decide_eq_true_eq, not_or, not_and]
    omega

theorem C8_detector_witness :
    detect_language_mix " ".toList = (false, false) :=
  C8_detector.1 " ".toList (by decide)

theorem routeSentence_eq_route_spec {ε : Type}
    (svc : SvcCall → Except ε (List Char)) (s : List Char) :
    routeSentence svc s = route_spec svc s := by
  rcases hd : detect_language_mix s with ⟨h1, h2⟩
  cases h1 <;> cases h2 <;>
    simp [routeSentence, route_spec, hd, pathMixed, pathHindi, pathOther]

/-- C4: the translation router chooses its path exactly by the
script-detector output, per the specification's decision table: both
scripts present routes through auto→Hindi then Hindi→English; Devanagari
only routes Hindi→English directly; no Devanagari routes auto→English
directly. -/
theorem C4_router {ε : Type} (svc : SvcCall → Except ε (List Char))
    (s : List Char) : routeSentence svc s = route_spec svc s :=
  routeSentence_eq_route_spec svc s

/-- C10: `translate` never propagates an error to its caller: whatever the
body of the try block produces, the result is either its normal output or
the fixed failure message. -/
theorem C10_no_exception_escapes {ε : Type}
    (svc : SvcCall → Except ε (List Char)) (t : List Char) :
    (∃ r, (translateRun svc t).1 = .ok r ∧ translate svc t = r) ∨
    (∃ e, (translateRun svc t).1 = .error e ∧ translate svc t = failMsg) := by
  rcases h : (translateRun svc t).1 with e | r
  · refine Or.inr ⟨e, rfl, ?_⟩
    unfold translate
    rw [h]
  · refine Or.inl ⟨r, rfl, ?_⟩
    unfold translate
    rw [h]

theorem translateLoop_error {ε : Type} (svc : SvcCall → Except ε (List Char))
    (s : List Char) (l2 : List (List Char)) (e : ε)
    (hs : pyStrip s ≠ []) (herr : (routeSentence svc s).1 = .error e) :
    ∀ l1 : List (List Char),
      (∀ s2 ∈ l1, pyStrip s2 ≠ [] → ∃ r, (routeSentence svc s2).1 = .ok r) →
      translateLoop svc (l1 ++ s :: l2) =
        (.error e, (translateLoop svc l1).2 ++ (routeSentence svc s).2) := by
  intro l1
  induction l1 with
  | nil =>
    intro _
    rcases hr : routeSentence svc s with ⟨res, cs⟩
    rw [hr] at herr
    simp only at herr
    subst herr
    simp [translateLoop, hs, hr]
  | cons s1 l1 ih =>
    intro hok
    have hok1 := hok s1 (List.mem_cons_self _ _)
    have hokrest : ∀ s2 ∈ l1, pyStrip s2 ≠ [] →
        ∃ r, (routeSentence svc s2).1 = .ok r :=
      fun s2 h2 => hok s2 (List.mem_cons_of_mem _ h2)
    by_cases hb : pyStrip s1 = []
    · simp only [List.cons_append, translateLoop, if_pos hb]
      exact ih hokrest
    · obtain ⟨r, hr⟩ := hok1 hb
      rcases hrr : routeSentence svc s1 with ⟨res1, cs1⟩
      rw [hrr] at hr
      simp only at hr
      subst hr
      simp only [List.cons_append, translateLoop, if_neg hb, hrr]
      simp only [List.append_eq]
      rw [ih hokrest]
      simp [Except.map]

/-- C5: if the external collaborator raises an error while some sentence is
being routed (all earlier non-blank sentences having routed successfully),
`translate` returns the fixed failure message — never partial output, never
propagating — and the calls made stop at the failing sentence: the
sentences after it are not routed. -/
theorem C5_service_error {ε : Type} (svc : SvcCall → Except ε (List Char))
    (t : List Char) (l1 l2 : List (List Char)) (s : List Char) (e : ε)
    (hsplit : split_sentences t = l1 ++ s :: l2)
    (hok : ∀ s2 ∈ l1, pyStrip s2 ≠ [] → ∃ r, (routeSentence svc s2).1 = .ok r)
    (hs : pyStrip s ≠ [])
    (herr : (routeSentence svc s).1 = .error e) :
    translate svc t = failMsg ∧
      translateCalls svc t =
        (translateLoop svc l1).2 ++ (routeSentence svc s).2 := by
  have hloop := translateLoop_error svc s l2 e hs herr l1 hok
  have htb : pyStrip t ≠ [] := by
    intro hb
    have hall : ∀ c ∈ t, pyIsSpace c = true := pyStrip_eq_nil_iff.mp hb
    have hsmem : s ∈ split_sentences t := by
      rw [hsplit]
      exact List.mem_append_right _ (List.mem_cons_self _ _)
    have hsall : ∀ c ∈ s, pyIsSpace c = true := by
      intro c hc
      apply hall
      have hj := (splitGo_join t [])
      simp only [List.nil_append] at hj
      have : c ∈ (split_sentences t).join := List.mem_join.mpr ⟨s, hsmem, hc⟩
      rwa [split_sentences, hj] at this
    exact hs (pyStrip_eq_nil_iff.mpr hsall)
  have hmain : translateRun svc t =
      (.error e, (translateLoop svc l1).2 ++ (routeSentence svc s).2) := by
    unfold translateRun
    rw [if_neg htb, hsplit, hloop]
  constructor
  · unfold translate
    rw [hmain]
  · unfold translateCalls
    rw [hmain]

theorem C5_service_error_witness :
    translate
        (fun c => if c.text = " b.".toList
          then Except.error (PyErr.serviceError "quota".toList)
          else Except.ok c.text)
        "a. b. c.".toList = failMsg :=
  (C5_service_error
    (fun c => if c.text = " b.".toList
      then Except.error (PyErr.serviceError "quota".toList)
      else Except.ok c.text)
    "a. b. c.".toList ["a.".toList] [" c.".toList] " b.".toList
    (PyErr.serviceError "quota".toList)
    (by decide)
    (by
      intro s2 hs2 _
      rw [List.mem_singleton] at hs2
      subst hs2
      exact ⟨"a.".toList, rfl⟩)
    (by decide)
    rfl).1

/-- C9: preservation on the specification's example masks `John` and
`12/05/2023` as two distinct placeholders, `John`'s placeholder preceding
the date's, and restoration with the returned list reproduces the original
text (hence those substrings) exactly.  (The leading capital `I` is
preserved as well, as placeholder 0.) -/
theorem C9_preservation_example :
    preserve_special_terms "I met John on 12/05/2023".toList =
      ("PRESERVED_0 met PRESERVED_1 on PRESERVED_2".toList,
        ["I".toList, "John".toList, "12/05/2023".toList]) ∧
    restore_preserved_terms "PRESERVED_0 met PRESERVED_1 on PRESERVED_2".toList
        ["I".toList, "John".toList, "12/05/2023".toList] =
      "I met John on 12/05/2023".toList := by
  constructor
  · rw [preserveF_eq]
    decide
  · rw [restoreF_eq]
    decide

/-- C2 as stated is false: on the input `Go PRESERVED_0`, whose text already
contains the placeholder token that masking then duplicates, restoration
yields `Go Go` rather than the original text. -/
theorem C2_counterexample :
    restore_preserved_terms (preserve_special_terms "Go PRESERVED_0".toList).1
      (preserve_special_terms "Go PRESERVED_0".toList).2 ≠
    "Go PRESERVED_0".toList := by
  rw [preserveF_eq, restoreF_eq]
  decide

/-- C7 as stated is false: on the input `Go PRESERVED_5` only one term is
preserved, yet the placeholder index 5 also appears in the masked text (an
incidental collision), so the indices appearing are not the contiguous
range `[0, 1)`. -/
theorem C7_counterexample :
    preserve_special_terms "Go PRESERVED_5".toList =
      ("PRESERVED_0 PRESERVED_5".toList, ["Go".toList]) ∧
    marker 5 <:+: (preserve_special_terms "Go PRESERVED_5".toList).1 := by
  constructor
  · rw [preserveF_eq]
    decide
  · rw [preserveF_eq]
    exact ⟨"PRESERVED_0 ".toList, [], by decide⟩

/-- C1 as stated is false: the orchestrator never applies term preservation.
With a collaborator that translates the sentence `John` to `ZZZ` and echoes
everything else, the code returns `ZZZ` while the claimed
preserve-route-restore pipeline would return `John`. -/
theorem C1_counterexample :
    translate
        (fun c => if c.text = "John".toList then Except.ok "ZZZ".toList
          else (Except.ok c.text : Except PyErr (List Char)))
        "John".toList ≠
    claimPipeline
        (fun c => if c.text = "John".toList then Except.ok "ZZZ".toList
          else (Except.ok c.text : Except PyErr (List Char)))
        "John".toList := by
  have h2 : claimPipeline
      (fun c => if c.text = "John".toList then Except.ok "ZZZ".toList
        else (Except.ok c.text : Except PyErr (List Char)))
      "John".toList = "John".toList := by
    simp only [claimPipeline, claimLoop, claimSentence, preserveF_eq, restoreF_eq]
    decide
  rw [h2]
  decide

theorem amendedLoop_eq {ε : Type} (svc : SvcCall → Except ε (List Char)) :
    ∀ l : List (List Char), amendedLoop svc l = (translateLoop svc l).1 := by
  intro l
  induction l with
  | nil => rfl
  | cons s ss ih =>
    by_cases hb : pyStrip s = []
    · simp only [amendedLoop, translateLoop, if_pos hb]
      exact ih
    · simp only [amendedLoop, translateLoop, if_neg hb]
      rw [← routeSentence_eq_route_spec svc s]
      rcases hr : routeSentence svc s with ⟨res, cs⟩
      rcases res with e | r
      · simp [hr]
      · simp [hr, ih]

/-- C1 as amended: for every input, `translate` segments the text, routes
each sentence whose content is not whitespace-only directly to the external
collaborator (per the detected script mix, with no term preservation and no
restoration), and joins the per-sentence results with a single space;
whitespace-only input yields the empty string and a raised service error
yields the fixed failure message. -/
theorem C1_amended_pipeline {ε : Type} (svc : SvcCall → Except ε (List Char))
    (t : List Char) : translate svc t = amendedPipeline svc t := by
  unfold translate amendedPipeline translateRun
  by_cases hb : pyStrip t = []
  · simp [hb]
  · simp only [if_neg hb]
    rw [amendedLoop_eq]
    rcases hl : translateLoop svc (split_sentences t) with ⟨res, cs⟩
    rcases res with e | r <;> simp [hl]


/-! ### Walking `pyReplace` over an alternation -/

theorem pyReplace_nil (pat rep : List Char) : pyReplace [] pat rep = [] := by
  conv_lhs => unfold pyReplace

theorem pyReplace_cons_neg {pat : List Char} {c : Char} {cs rep : List Char}
    (h : ¬ (pat ≠ [] ∧ pat.isPrefixOf (c :: cs))) :
    pyReplace (c :: cs) pat rep = c :: pyReplace cs pat rep := by
  conv_lhs => unfold pyReplace
  rw [dif_neg h]

theorem pyReplace_cons_pos {pat : List Char} {c : Char} {cs rep : List Char}
    (h : pat ≠ [] ∧ pat.isPrefixOf (c :: cs)) :
    pyReplace (c :: cs) pat rep =
      rep ++ pyReplace ((c :: cs).drop pat.length) pat rep := by
  conv_lhs => unfold pyReplace
  rw [dif_pos h]

theorem pyReplace_skip {pat rep : List Char} :
    ∀ (A R : List Char), NoInnerOcc pat A R →
      pyReplace (A ++ R) pat rep = A ++ pyReplace R pat rep := by
  intro A
  induction A with
  | nil => intro R _; simp
  | cons c A2 ih =>
    intro R hno
    have hnp : ¬ pat.isPrefixOf (c :: (A2 ++ R)) := by
      have h1 := hno (c :: A2) (by simp) (List.suffix_refl _)
      rwa [List.cons_append] at h1
    have hrec := ih R (fun A3 h1 h2 => hno A3 h1 (h2.trans (List.suffix_cons c A2)))
    calc pyReplace ((c :: A2) ++ R) pat rep
        = pyReplace (c :: (A2 ++ R)) pat rep := by rw [List.cons_append]
      _ = c :: pyReplace (A2 ++ R) pat rep :=
          pyReplace_cons_neg (fun hcon => hnp hcon.2)
      _ = c :: (A2 ++ pyReplace R pat rep) := by rw [hrec]
      _ = (c :: A2) ++ pyReplace R pat rep := by rw [List.cons_append]

theorem pyReplace_head {pat rep R : List Char} (hpat : pat ≠ []) :
    pyReplace (pat ++ R) pat rep = rep ++ pyReplace R pat rep := by
  rcases hp : pat with _ | ⟨p, ps⟩
  · exact absurd hp hpat
  · rw [List.cons_append,
      pyReplace_cons_pos ⟨by simp, by
        rw [List.isPrefixOf_iff_prefix, ← List.cons_append]
        exact List.prefix_append _ _⟩]
    have hd : (p :: (ps ++ R)).drop (p :: ps).length = R := by
      rw [← List.cons_append]
      exact List.drop_left _ _
    rw [hd]

/-! ### Facts about the placeholder literal -/

theorem pres10_split : pres10 = pres9 ++ ['_'] := by decide

theorem pres9_prefix_marker (i : Nat) : pres9 <+: marker i := by
  unfold marker
  refine ⟨'_' :: (Nat.repr i).toList, ?_⟩
  have h : pres9 ++ ['_'] = "PRESERVED_".toList := by decide
  rw [show pres9 ++ '_' :: (Nat.repr i).toList =
    (pres9 ++ ['_']) ++ (Nat.repr i).toList from by simp, h]

theorem marker_eq_digit : ∀ j < 10, marker j = pres10 ++ [Nat.digitChar j] := by
  decide

theorem marker_length11 : ∀ j < 10, (marker j).length = 11 := by decide

theorem marker_straddle : ∀ i < 10, ∀ j < 10, ∀ k < 11, 1 ≤ k →
    (marker i).drop k ≠ (marker j).take (11 - k) := by decide

theorem marker_inj10 : ∀ i < 10, ∀ j < 10, marker i = marker j → i = j := by
  decide

theorem marker_drop_head : ∀ j < 10, ∀ a < 11, 1 ≤ a →
    ((marker j).drop a).head? ≠ some 'P' := by decide

theorem marker_head (i : Nat) : (marker i).head? = some 'P' := by
  unfold marker
  rfl

theorem marker_ne_nil (i : Nat) : marker i ≠ [] := by
  unfold marker
  simp [String.toList]

theorem prefix_of_append_le {p A B : List Char} (h : p <+: A ++ B)
    (hlen : p.length ≤ A.length) : p <+: A :=
  List.prefix_of_prefix_length_le h (List.prefix_append A B) hlen

theorem isPrefixOf_head {p : List Char} {x : Char} {xs : List Char}
    (h : p.isPrefixOf (x :: xs)) (hne : p ≠ []) : p.head? = some x := by
  rcases p with _ | ⟨a, p2⟩
  · exact absurd rfl hne
  · rw [List.isPrefixOf_iff_prefix] at h
    rcases h with ⟨u, hu⟩
    rw [List.cons_append] at hu
    simp only [List.cons.injEq] at hu
    rw [List.head?_cons, hu.1]

theorem marker_prefix_straddle {i j : Nat} (hi : i < 10) (hj : j < 10)
    {A₂ Y : List Char} (hne : A₂ ≠ [])
    (h : (marker i).isPrefixOf (A₂ ++ (marker j ++ Y))) : pres9 <:+: A₂ := by
  have hp : marker i <+: A₂ ++ (marker j ++ Y) :=
    List.isPrefixOf_iff_prefix.mp h
  have hmi : (marker i).length = 11 := marker_length11 i hi
  by_cases hk : 11 ≤ A₂.length
  · have h1 : marker i <+: A₂ := prefix_of_append_le hp (by omega)
    exact ((pres9_prefix_marker i).trans h1).isInfix
  · exfalso
    push_neg at hk
    have hk1 : 1 ≤ A₂.length := List.length_pos.mpr hne
    have hA : A₂ <+: marker i :=
      List.prefix_of_prefix_length_le (List.prefix_append _ _) hp (by omega)
    have hAeq : A₂ = (marker i).take A₂.length := by
      rw [List.prefix_iff_eq_take] at hA
      exact hA
    have hsplit : A₂ ++ (marker i).drop A₂.length = marker i := by
      nth_rewrite 1 [hAeq]
      exact List.take_append_drop _ _
    rw [← hsplit] at hp
    have hv : (marker i).drop A₂.length <+: marker j ++ Y :=
      (List.prefix_append_right_inj A₂).mp hp
    have hvlen : ((marker i).drop A₂.length).length = 11 - A₂.length := by
      rw [List.length_drop, hmi]
    have hvj : (marker i).drop A₂.length <+: marker j :=
      List.prefix_of_prefix_length_le hv (List.prefix_append _ _)
        (by rw [hvlen, marker_length11 j hj]; omega)
    have hveq : (marker i).drop A₂.length = (marker j).take (11 - A₂.length) := by
      rw [List.prefix_iff_eq_take] at hvj
      rw [hvj, hvlen]
    exact marker_straddle i hi j hj A₂.length (by omega) (by omega) hveq


theorem suffix_eq_drop {A₂ A : List Char} (h : A₂ <:+ A) :
    A₂ = A.drop (A.length - A₂.length) := by
  rcases h with ⟨u, hu⟩
  subst hu
  rw [List.length_append]
  have h1 : u.length + A₂.length - A₂.length = u.length := by omega
  rw [h1, List.drop_left]

theorem noInnerOcc_stretch {i : Nat} (hi : i < 10) {S R : List Char}
    (hS : ¬ pres9 <:+: S)
    (hR : R = [] ∨ ∃ j, j < 10 ∧ ∃ Y, R = marker j ++ Y) :
    NoInnerOcc (marker i) S R := by
  intro A₂ hne hsuf hpre
  rcases hR with hR | ⟨j, hj, Y, hR⟩
  · subst hR
    rw [List.append_nil] at hpre
    have hp : marker i <+: A₂ := List.isPrefixOf_iff_prefix.mp hpre
    have h9 : pres9 <+: A₂ := (pres9_prefix_marker i).trans hp
    exact hS (h9.isInfix.trans hsuf.isInfix)
  · subst hR
    have h9 : pres9 <:+: A₂ := marker_prefix_straddle hi hj hne hpre
    exact hS (h9.trans hsuf.isInfix)

theorem noInnerOcc_marker {i j : Nat} (hi : i < 10) (hj : j < 10)
    (hne : i ≠ j) (R : List Char) :
    NoInnerOcc (marker i) (marker j) R := by
  intro A₂ hA2ne hsuf hpre
  have hlenj : (marker j).length = 11 := marker_length11 j hj
  have hdrop : A₂ = (marker j).drop ((marker j).length - A₂.length) :=
    suffix_eq_drop hsuf
  have hlenle : A₂.length ≤ 11 := by
    have := hsuf.length_le
    omega
  by_cases hfull : A₂.length = 11
  · have hA2 : A₂ = marker j := by
      rw [hdrop, hlenj, hfull]
      simp
    rw [hA2] at hpre
    have hp : marker i <+: marker j ++ R := List.isPrefixOf_iff_prefix.mp hpre
    have h1 : marker i <+: marker j :=
      prefix_of_append_le hp (by rw [marker_length11 i hi, hlenj])
    have h2 : marker i = marker j := by
      have h3 := List.prefix_iff_eq_take.mp h1
      rw [h3, marker_length11 i hi, ← hlenj, List.take_length]
    exact hne (marker_inj10 i hi j hj h2)
  · have h0 : 0 < A₂.length := List.length_pos.mpr hA2ne
    have ha : 1 ≤ (marker j).length - A₂.length := by omega
    rcases hA2c : A₂ with _ | ⟨x, xs⟩
    · exact hA2ne hA2c
    · rw [hA2c, List.cons_append] at hpre
      have hx := isPrefixOf_head hpre (marker_ne_nil i)
      rw [marker_head i] at hx
      have hh : ((marker j).drop ((marker j).length - A₂.length)).head? =
          some 'P' := by
        rw [← hdrop, hA2c, List.head?_cons]
        exact hx.symm
      exact marker_drop_head j hj ((marker j).length - A₂.length)
        (by omega) ha hh

theorem pyReplace_altTail_noocc {i : Nat} (hi : i < 10) (rep : List Char) :
    ∀ (tail : List (Nat × List Char)) (head : List Char),
      ¬ pres9 <:+: head →
      (∀ p ∈ tail, p.1 < 10 ∧ p.1 ≠ i ∧ ¬ pres9 <:+: p.2) →
      pyReplace (head ++ altTail tail) (marker i) rep = head ++ altTail tail := by
  intro tail
  induction tail with
  | nil =>
    intro head hhead _
    simp only [altTail]
    rw [pyReplace_skip head [] (noInnerOcc_stretch hi hhead (Or.inl rfl))]
    rw [pyReplace_nil]
  | cons p rest ih =>
    obtain ⟨j, S⟩ := p
    intro head hhead htail
    obtain ⟨hj10, hjne, hSclean⟩ := htail (j, S) (List.mem_cons_self _ _)
    have htail2 : ∀ p ∈ rest, p.1 < 10 ∧ p.1 ≠ i ∧ ¬ pres9 <:+: p.2 :=
      fun p hp => htail p (List.mem_cons_of_mem _ hp)
    simp only [altTail, List.append_assoc]
    rw [pyReplace_skip head _
      (noInnerOcc_stretch hi hhead (Or.inr ⟨j, hj10, _, rfl⟩))]
    rw [pyReplace_skip (marker j) _
      (noInnerOcc_marker hi hj10 (fun he => hjne he.symm) _)]
    have := ih S hSclean htail2
    rw [this]

theorem pyReplace_altTail_replace {i : Nat} (hi : i < 10) (term : List Char) :
    ∀ (pre : List (Nat × List Char)) (head S : List Char)
      (post : List (Nat × List Char)),
      ¬ pres9 <:+: head → ¬ pres9 <:+: S →
      (∀ p ∈ pre, p.1 < 10 ∧ p.1 ≠ i ∧ ¬ pres9 <:+: p.2) →
      (∀ p ∈ post, p.1 < 10 ∧ p.1 ≠ i ∧ ¬ pres9 <:+: p.2) →
      pyReplace (head ++ altTail (pre ++ (i, S) :: post)) (marker i) term =
        head ++ altTail pre ++ term ++ S ++ altTail post := by
  intro pre
  induction pre with
  | nil =>
    intro head S post hhead hS hpre hpost
    simp only [List.nil_append, altTail, List.append_assoc]
    rw [pyReplace_skip head _
      (noInnerOcc_stretch hi hhead (Or.inr ⟨i, hi, _, rfl⟩))]
    rw [pyReplace_head (marker_ne_nil i)]
    rw [pyReplace_altTail_noocc hi term post S hS hpost]
  | cons p pre2 ih =>
    obtain ⟨j, S1⟩ := p
    intro head S post hhead hS hpre hpost
    obtain ⟨hj10, hjne, hS1⟩ := hpre (j, S1) (List.mem_cons_self _ _)
    simp only [List.cons_append, altTail, List.append_assoc, List.append_eq]
    rw [pyReplace_skip head _
      (noInnerOcc_stretch hi hhead (Or.inr ⟨j, hj10, _, rfl⟩))]
    rw [pyReplace_skip (marker j) _
      (noInnerOcc_marker hi hj10 (fun he => hjne he.symm) _)]
    have hrec := ih S1 S post hS1 hS
      (fun p hp => hpre p (List.mem_cons_of_mem _ hp)) hpost
    simp only [List.append_assoc] at hrec
    rw [hrec]

theorem pyReplace_empty_le : ∀ (n : Nat) (t pat : List Char), t.length ≤ n →
    (pyReplace t pat []).length ≤ t.length := by
  intro n
  induction n with
  | zero =>
    intro t pat h
    rw [List.eq_nil_of_length_eq_zero (Nat.le_zero.mp h), pyReplace_nil]
  | succ n ih =>
    intro t pat h
    rcases t with _ | ⟨c, cs⟩
    · rw [pyReplace_nil]
    · by_cases hc : pat ≠ [] ∧ pat.isPrefixOf (c :: cs)
      · rw [pyReplace_cons_pos hc]
        simp only [List.nil_append]
        have hplen : 0 < pat.length := List.length_pos.mpr hc.1
        have hdlen : ((c :: cs).drop pat.length).length ≤ n := by
          simp only [List.length_drop, List.length_cons] at h ⊢
          omega
        have h2 := ih _ pat hdlen
        simp only [List.length_drop, List.length_cons] at h2 ⊢
        omega
      · rw [pyReplace_cons_neg hc]
        have h2 := ih cs pat (by simp only [List.length_cons] at h; omega)
        simp only [List.length_cons]
        omega

theorem pyReplace_lt_of_infix : ∀ (n : Nat) (t pat : List Char), t.length ≤ n →
    pat ≠ [] → pat <:+: t → (pyReplace t pat []).length < t.length := by
  intro n
  induction n with
  | zero =>
    intro t pat h hpat hocc
    rw [List.eq_nil_of_length_eq_zero (Nat.le_zero.mp h)] at hocc
    rcases hocc with ⟨u, v, huv⟩
    rcases pat with _ | ⟨p, ps⟩
    · exact absurd rfl hpat
    · exact absurd huv (by simp)
  | succ n ih =>
    intro t pat h hpat hocc
    rcases t with _ | ⟨c, cs⟩
    · rcases hocc with ⟨u, v, huv⟩
      rcases pat with _ | ⟨p, ps⟩
      · exact absurd rfl hpat
      · exact absurd huv (by simp)
    · by_cases hc : pat.isPrefixOf (c :: cs)
      · rw [pyReplace_cons_pos ⟨hpat, hc⟩]
        simp only [List.nil_append]
        have hplen : 0 < pat.length := List.length_pos.mpr hpat
        have hle : pat.length ≤ (c :: cs).length :=
          (List.isPrefixOf_iff_prefix.mp hc).length_le
        have h2 := pyReplace_empty_le n ((c :: cs).drop pat.length) pat
          (by simp only [List.length_drop, List.length_cons] at h ⊢; omega)
        simp only [List.length_drop, List.length_cons] at h2 ⊢
        omega
      · have hocc2 : pat <:+: cs := by
          rcases List.infix_cons_iff.mp hocc with h1 | h1
          · exact absurd (List.isPrefixOf_iff_prefix.mpr h1) hc
          · exact h1
        rw [pyReplace_cons_neg (fun hcon => hc hcon.2)]
        have h2 := ih cs pat (by simp only [List.length_cons] at h; omega)
          hpat hocc2
        simp only [List.length_cons]
        omega

theorem not_infix_of_pyReplace_eq {t pat : List Char} (hpat : pat ≠ [])
    (h : pyReplace t pat [] = t) : ¬ pat <:+: t := by
  intro hocc
  have h2 := pyReplace_lt_of_infix t.length t pat (Nat.le_refl _) hpat hocc
  rw [h] at h2
  exact absurd h2 (lt_irrefl _)


/-! ### The alternation view of a rendered segment list -/

theorem altOf_render (cut : Nat) :
    ∀ L : List Seg, renderCut cut L = (altOf cut L).1 ++ altTail (altOf cut L).2 := by
  intro L
  induction L with
  | nil => simp [renderCut, altOf, altTail]
  | cons seg L2 ih =>
    rcases seg with s | ⟨j, term⟩
    · simp only [renderCut, altOf, ih]
      simp [List.append_assoc]
    · by_cases hj : j < cut
      · simp only [renderCut, altOf, if_pos hj, ih]
        simp [List.append_assoc]
      · simp only [renderCut, altOf, if_neg hj, ih]
        simp [altTail, List.append_assoc]

theorem altOf_tail_slot (cut : Nat) :
    ∀ (L : List Seg) (p : Nat × List Char), p ∈ (altOf cut L).2 →
      ∃ t2, Seg.slot p.1 t2 ∈ L := by
  intro L
  induction L with
  | nil => intro p hp; simp [altOf] at hp
  | cons seg L2 ih =>
    intro p hp
    rcases seg with s | ⟨j, term⟩
    · simp only [altOf] at hp
      obtain ⟨t2, ht⟩ := ih p hp
      exact ⟨t2, List.mem_cons_of_mem _ ht⟩
    · by_cases hj : j < cut
      · simp only [altOf, if_pos hj] at hp
        obtain ⟨t2, ht⟩ := ih p hp
        exact ⟨t2, List.mem_cons_of_mem _ ht⟩
      · simp only [altOf, if_neg hj] at hp
        rcases List.mem_cons.mp hp with h1 | h1
        · subst h1
          exact ⟨term, List.mem_cons_self _ _⟩
        · obtain ⟨t2, ht⟩ := ih p h1
          exact ⟨t2, List.mem_cons_of_mem _ ht⟩

theorem altOf_infix (cut N : Nat) :
    ∀ L : List Seg, (∀ j t2, Seg.slot j t2 ∈ L → j < N) →
      ((altOf cut L).1 <+: renderCut N L) ∧
      (∀ p ∈ (altOf cut L).2, p.2 <:+: renderCut N L) := by
  intro L
  induction L with
  | nil => exact fun _ => ⟨by simp [altOf, renderCut], by simp [altOf]⟩
  | cons seg L2 ih =>
    intro hslots
    have hslots2 : ∀ j t2, Seg.slot j t2 ∈ L2 → j < N :=
      fun j t2 h => hslots j t2 (List.mem_cons_of_mem _ h)
    obtain ⟨ihp, ihi⟩ := ih hslots2
    rcases seg with s | ⟨j, term⟩
    · constructor
      · simp only [altOf, renderCut]
        exact (List.prefix_append_right_inj s).mpr ihp
      · intro p hp
        simp only [altOf] at hp
        simp only [renderCut]
        exact (ihi p hp).trans (List.suffix_append s _).isInfix
    · have hjN : j < N := hslots j term (List.mem_cons_self _ _)
      by_cases hj : j < cut
      · constructor
        · simp only [altOf, if_pos hj, renderCut, if_pos hjN]
          exact (List.prefix_append_right_inj term).mpr ihp
        · intro p hp
          simp only [altOf, if_pos hj] at hp
          simp only [renderCut, if_pos hjN]
          exact (ihi p hp).trans (List.suffix_append term _).isInfix
      · constructor
        · simp only [altOf, if_neg hj]
          exact List.nil_prefix
        · intro p hp
          simp only [altOf, if_neg hj] at hp
          simp only [renderCut, if_pos hjN]
          rcases List.mem_cons.mp hp with h1 | h1
          · subst h1
            exact ihp.isInfix.trans (List.suffix_append term _).isInfix
          · exact (ihi p h1).trans (List.suffix_append term _).isInfix

theorem renderCut_succ_of_not_mem (i : Nat) :
    ∀ L : List Seg, i ∉ slotIdxs L → renderCut (i + 1) L = renderCut i L := by
  intro L
  induction L with
  | nil => intro _; rfl
  | cons seg L2 ih =>
    intro hmem
    rcases seg with s | ⟨j, term⟩
    · simp only [slotIdxs] at hmem
      simp only [renderCut, ih hmem]
    · simp only [slotIdxs, List.mem_cons] at hmem
      push_neg at hmem
      have hji : j ≠ i := fun he => hmem.1 he.symm
      have hiff : (j < i + 1) = (j < i) := by
        apply propext
        constructor
        · intro h; omega
        · intro h; omega
      simp only [renderCut, hiff, ih hmem.2]

theorem slot_mem_slotIdxs (j : Nat) (t2 : List Char) :
    ∀ L : List Seg, Seg.slot j t2 ∈ L → j ∈ slotIdxs L := by
  intro L
  induction L with
  | nil => intro h; simp at h
  | cons seg L2 ih =>
    intro h
    rcases List.mem_cons.mp h with h1 | h1
    · rw [← h1]
      simp [slotIdxs]
    · rcases seg with s | ⟨j2, t3⟩
      · simpa [slotIdxs] using ih h1
      · simp only [slotIdxs, List.mem_cons]
        exact Or.inr (ih h1)


theorem altOf_step (i : Nat) :
    ∀ L : List Seg, (slotIdxs L).Nodup →
      ((¬ ∃ t2, Seg.slot i t2 ∈ L) ∧ renderCut (i + 1) L = renderCut i L ∧
        (∀ p ∈ (altOf i L).2, p.1 ≠ i)) ∨
      (∃ term pre S post,
        Seg.slot i term ∈ L ∧
        (altOf i L).2 = pre ++ (i, S) :: post ∧
        (∀ p ∈ pre, p.1 ≠ i) ∧ (∀ p ∈ post, p.1 ≠ i) ∧
        renderCut (i + 1) L =
          (altOf i L).1 ++ (altTail pre ++ (term ++ (S ++ altTail post)))) := by
  intro L
  induction L with
  | nil =>
    intro _
    refine Or.inl ⟨?_, rfl, by simp [altOf]⟩
    rintro ⟨t2, ht⟩
    simp at ht
  | cons seg L2 ih =>
    intro hnd
    rcases seg with s | ⟨j, term0⟩
    · have hnd2 : (slotIdxs L2).Nodup := by simpa [slotIdxs] using hnd
      rcases ih hnd2 with ⟨hno, heq, hne⟩ | ⟨term, pre, S, post, hmem, htl, hpre, hpost, hrender⟩
      · refine Or.inl ⟨?_, ?_, ?_⟩
        · rintro ⟨t2, ht⟩
          rcases List.mem_cons.mp ht with h1 | h1
          · exact Seg.noConfusion h1
          · exact hno ⟨t2, h1⟩
        · simp only [renderCut, heq]
        · intro p hp
          simp only [altOf] at hp
          exact hne p hp
      · refine Or.inr ⟨term, pre, S, post, List.mem_cons_of_mem _ hmem, ?_, hpre, hpost, ?_⟩
        · simp only [altOf]
          exact htl
        · simp only [renderCut, altOf, hrender]
          simp [List.append_assoc]
    · simp only [slotIdxs] at hnd
      have hnd2 : (slotIdxs L2).Nodup := hnd.of_cons
      have hjnotin : j ∉ slotIdxs L2 := (List.nodup_cons.mp hnd).1
      by_cases hji : j = i
      · subst hji
        refine Or.inr ⟨term0, [], (altOf j L2).1, (altOf j L2).2,
          List.mem_cons_self _ _, ?_, by simp, ?_, ?_⟩
        · simp only [altOf, if_neg (lt_irrefl j)]
          simp
        · intro p hp
          intro hpe
          obtain ⟨t2, ht2⟩ := altOf_tail_slot j L2 p hp
          rw [hpe] at ht2
          exact hjnotin (slot_mem_slotIdxs j t2 L2 ht2)
        · simp only [renderCut, if_pos (Nat.lt_succ_self j), altOf,
            if_neg (lt_irrefl j)]
          rw [renderCut_succ_of_not_mem j L2 hjnotin, altOf_render j L2]
          simp [altTail]
      · by_cases hjlt : j < i
        · have h1 : (j < i + 1) = True := by simp; omega
          have h2 : (j < i) = True := by simp; omega
          rcases ih hnd2 with ⟨hno, heq, hne⟩ | ⟨term, pre, S, post, hmem, htl, hpre, hpost, hrender⟩
          · refine Or.inl ⟨?_, ?_, ?_⟩
            · rintro ⟨t2, ht⟩
              rcases List.mem_cons.mp ht with hc | hc
              · injection hc with e1 e2
                exact hji e1.symm
              · exact hno ⟨t2, hc⟩
            · simp only [renderCut, h1, h2, if_true, heq]
            · intro p hp
              simp only [altOf, h2, if_true] at hp
              exact hne p hp
          · refine Or.inr ⟨term, pre, S, post, List.mem_cons_of_mem _ hmem, ?_, hpre, hpost, ?_⟩
            · simp only [altOf, h2, if_true]
              exact htl
            · simp only [renderCut, h1, if_true, altOf, h2, hrender]
              simp [List.append_assoc]
        · have hgt : i < j := by omega
          have h1 : ¬ (j < i + 1) := by omega
          have h2 : ¬ (j < i) := by omega
          rcases ih hnd2 with ⟨hno, heq, hne⟩ | ⟨term, pre, S, post, hmem, htl, hpre, hpost, hrender⟩
          · refine Or.inl ⟨?_, ?_, ?_⟩
            · rintro ⟨t2, ht⟩
              rcases List.mem_cons.mp ht with hc | hc
              · injection hc with e1 e2
                exact hji e1.symm
              · exact hno ⟨t2, hc⟩
            · simp only [renderCut, if_neg h1, if_neg h2, heq]
            · intro p hp
              simp only [altOf, if_neg h2, List.mem_cons] at hp
              rcases hp with hp | hp
              · rw [hp]
                exact fun he => hji he
              · exact hne p hp
          · refine Or.inr ⟨term, (j, (altOf i L2).1) :: pre, S, post,
              List.mem_cons_of_mem _ hmem, ?_, ?_, hpost, ?_⟩
            · simp only [altOf, if_neg h2, htl]
              rfl
            · intro p hp
              rcases List.mem_cons.mp hp with hc | hc
              · rw [hc]
                exact fun he => hji he
              · exact hpre p hc
            · simp only [renderCut, if_neg h1, altOf, if_neg h2, hrender, altTail]
              simp [List.append_assoc]



theorem restore_step {L : List Seg} {N i : Nat} (hN10 : N ≤ 10) (hiN : i < N)
    (hslots : ∀ j t2, Seg.slot j t2 ∈ L → j < N)
    (hnd : (slotIdxs L).Nodup)
    (hclean : ¬ pres9 <:+: renderCut N L)
    (term : List Char)
    (hterm : ∀ t2, Seg.slot i t2 ∈ L → t2 = term) :
    pyReplace (renderCut i L) (marker i) term = renderCut (i + 1) L := by
  have hi10 : i < 10 := lt_of_lt_of_le hiN hN10
  obtain ⟨hinfp, hinfi⟩ := altOf_infix i N L hslots
  have hheadC : ¬ pres9 <:+: (altOf i L).1 :=
    fun h => hclean (h.trans hinfp.isInfix)
  have htailC : ∀ p ∈ (altOf i L).2, ¬ pres9 <:+: p.2 :=
    fun p hp h => hclean (h.trans (hinfi p hp))
  have htail10 : ∀ p ∈ (altOf i L).2, p.1 < 10 := by
    intro p hp
    obtain ⟨t2, hmem⟩ := altOf_tail_slot i L p hp
    exact lt_of_lt_of_le (hslots _ _ hmem) hN10
  rcases altOf_step i L hnd with ⟨hno, heq, hne⟩ |
    ⟨term2, pre, S, post, hmem, htl, hpre, hpost, hrender⟩
  · have hcond : ∀ p ∈ (altOf i L).2, p.1 < 10 ∧ p.1 ≠ i ∧ ¬ pres9 <:+: p.2 :=
      fun p hp => ⟨htail10 p hp, hne p hp, htailC p hp⟩
    rw [altOf_render i L,
      pyReplace_altTail_noocc hi10 term (altOf i L).2 (altOf i L).1 hheadC hcond,
      heq, altOf_render i L]
  · have hterm2 : term2 = term := hterm term2 hmem
    rw [← hterm2]
    have hSmem : (i, S) ∈ (altOf i L).2 := by
      rw [htl]
      exact List.mem_append_right _ (List.mem_cons_self _ _)
    have hSC : ¬ pres9 <:+: S := htailC (i, S) hSmem
    have hprec : ∀ p ∈ pre, p.1 < 10 ∧ p.1 ≠ i ∧ ¬ pres9 <:+: p.2 := by
      intro p hp
      have hp2 : p ∈ (altOf i L).2 := by
        rw [htl]
        exact List.mem_append_left _ hp
      exact ⟨htail10 p hp2, hpre p hp, htailC p hp2⟩
    have hpostc : ∀ p ∈ post, p.1 < 10 ∧ p.1 ≠ i ∧ ¬ pres9 <:+: p.2 := by
      intro p hp
      have hp2 : p ∈ (altOf i L).2 := by
        rw [htl]
        exact List.mem_append_right _ (List.mem_cons_of_mem _ hp)
      exact ⟨htail10 p hp2, hpost p hp, htailC p hp2⟩
    rw [altOf_render i L, htl]
    rw [pyReplace_altTail_replace hi10 term2 pre (altOf i L).1 S post
      hheadC hSC hprec hpostc]
    rw [hrender]
    simp [List.append_assoc]

theorem restore_all {L : List Seg} {N : Nat} (terms : List (List Char))
    (hlen : terms.length = N) (hN10 : N ≤ 10)
    (hslots : ∀ j t2, Seg.slot j t2 ∈ L → j < N)
    (hterms : ∀ j t2, Seg.slot j t2 ∈ L → terms.get? j = some t2)
    (hnd : (slotIdxs L).Nodup)
    (hclean : ¬ pres9 <:+: renderCut N L) :
    ∀ (k i : Nat), i + k = N →
      restoreGo i (terms.drop i) (renderCut i L) = renderCut N L := by
  intro k
  induction k with
  | zero =>
    intro i hik
    have hiN : i = N := by omega
    subst hiN
    rw [List.drop_eq_nil_of_le (by omega)]
    rw [restoreGo]
  | succ k ih =>
    intro i hik
    have hiN : i < N := by omega
    have hilen : i < terms.length := by omega
    have hdrop : terms.drop i = terms.get ⟨i, hilen⟩ :: terms.drop (i + 1) :=
      List.drop_eq_getElem_cons hilen
    rw [hdrop, restoreGo]
    have hterm : ∀ t2, Seg.slot i t2 ∈ L → t2 = terms.get ⟨i, hilen⟩ := by
      intro t2 hmem
      have h1 := hterms i t2 hmem
      rw [List.get?_eq_getElem?, List.getElem?_eq_getElem hilen] at h1
      simp only [Option.some.injEq] at h1
      rw [← h1]
      rfl
    rw [restore_step hN10 hiN hslots hnd hclean (terms.get ⟨i, hilen⟩) hterm]
    exact ih (i + 1) (by omega)


/-! ### Decomposition of single matches -/

theorem capMatch_decomp {t run rest : List Char}
    (h : capMatch t = some (run, rest)) :
    t = run ++ rest ∧ run ≠ [] ∧
      (rest = [] ∨ ∃ d ds, rest = d :: ds ∧ isWordChar d = false) := by
  rcases t with _ | ⟨c, cs⟩
  · simp [capMatch] at h
  · simp only [capMatch] at h
    by_cases hu : isUpperLatin c = true
    · rw [if_pos hu] at h
      have hlat : isLatinLetter c = true := by
        simp only [isUpperLatin, Bool.and_eq_true, decide_eq_true_eq] at hu
        simp only [isLatinLetter, Bool.or_eq_true, Bool.and_eq_true,
          decide_eq_true_eq]
        exact Or.inl hu
      have hsplit : (c :: cs).takeWhile isLatinLetter ++
          (c :: cs).dropWhile isLatinLetter = c :: cs :=
        List.takeWhile_append_dropWhile _ _
      have htk : (c :: cs).takeWhile isLatinLetter =
          c :: cs.takeWhile isLatinLetter := List.takeWhile_cons_of_pos hlat
      split at h
      · rename_i hdw
        simp only [Option.some.injEq, Prod.mk.injEq] at h
        obtain ⟨h1, h2⟩ := h
        refine ⟨?_, ?_, Or.inl h2.symm⟩
        · rw [← h1, ← h2, ← hdw]
          exact hsplit.symm
        · rw [← h1, htk]
          simp
      · split at h
        · exact absurd h (by simp)
        · rename_i d ds hdw hwd
          simp only [Option.some.injEq, Prod.mk.injEq] at h
          obtain ⟨h1, h2⟩ := h
          refine ⟨?_, ?_, Or.inr ⟨d, ds, h2.symm, by simpa using hwd⟩⟩
          · rw [← h1, ← h2, ← hdw]
            exact hsplit.symm
          · rw [← h1, htk]
            simp
    · rw [if_neg hu] at h
      exact absurd h (by simp)

theorem takeWhile_endsDigit {c : Char} {cs : List Char} (hc : pyDigit c = true) :
    endsDigit ((c :: cs).takeWhile pyDigit) := by
  have htk : (c :: cs).takeWhile pyDigit = c :: cs.takeWhile pyDigit :=
    List.takeWhile_cons_of_pos hc
  rcases hlast : (c :: cs.takeWhile pyDigit).getLast? with _ | z
  · simp at hlast
  · refine ⟨z, by rw [htk]; exact hlast, ?_⟩
    have hmem : z ∈ c :: cs.takeWhile pyDigit := List.mem_of_mem_getLast? hlast
    rcases List.mem_cons.mp hmem with h1 | h1
    · rw [h1]; exact hc
    · exact List.mem_takeWhile_imp h1

theorem numGroups_decomp {acc s m r : List Char}
    (h : numGroups acc s = some (m, r)) :
    ∃ d, s = d ++ r ∧ m = acc ++ d ∧ (endsDigit acc → endsDigit m) := by
  induction acc, s using numGroups.induct generalizing m r with
  | case1 acc =>
    unfold numGroups at h
    simp only [Option.some.injEq, Prod.mk.injEq] at h
    obtain ⟨h1, h2⟩ := h
    exact ⟨[], by simp [← h2], by simp [← h1], by simp [← h1]⟩
  | case2 acc c hsep =>
    unfold numGroups at h
    simp only [hsep, if_true, Option.some.injEq, Prod.mk.injEq] at h
    obtain ⟨h1, h2⟩ := h
    exact ⟨[], by simp [← h2], by simp [← h1], by simp [← h1]⟩
  | case3 acc c hsep c1 cs hdig r2 hrec ih =>
    obtain ⟨m2, rr⟩ := r2
    unfold numGroups at h
    simp only [hsep, hdig, hrec, if_true, Option.some.injEq, Prod.mk.injEq] at h
    obtain ⟨h1, h2⟩ := h
    obtain ⟨d2, hd1, hd2, hd3⟩ := ih hrec
    refine ⟨c :: (c1 :: cs).takeWhile pyDigit ++ d2, ?_, ?_, ?_⟩
    · rw [← h2]
      simp only [List.cons_append, List.append_assoc, ← hd1]
      rw [List.takeWhile_append_dropWhile]
    · rw [← h1, hd2]
      simp [List.append_assoc]
    · intro _
      rw [← h1]
      have : endsDigit (acc ++ c :: (c1 :: cs).takeWhile pyDigit) := by
        obtain ⟨z, hz1, hz2⟩ := takeWhile_endsDigit hdig
        refine ⟨z, ?_, hz2⟩
        rw [List.getLast?_append_of_ne_nil]
        · rw [show (c :: (c1 :: cs).takeWhile pyDigit) =
            [c] ++ (c1 :: cs).takeWhile pyDigit from rfl]
          rw [List.getLast?_append_of_ne_nil]
          · exact hz1
          · intro hne
            rw [hne] at hz1
            simp at hz1
        · simp
      exact hd3 this
  | case4 acc c hsep c1 cs hdig hrec ih =>
    unfold numGroups at h
    simp only [hsep, hdig, hrec, if_true, Option.some.injEq, Prod.mk.injEq] at h
    obtain ⟨h1, h2⟩ := h
    exact ⟨[], by simp [← h2], by simp [← h1], by simp [← h1]⟩
  | case5 acc c hsep c1 cs hdig =>
    unfold numGroups at h
    simp only [hsep, hdig, if_true, if_false, Bool.false_eq_true,
      Option.some.injEq, Prod.mk.injEq] at h
    obtain ⟨h1, h2⟩ := h
    exact ⟨[], by simp [← h2], by simp [← h1], by simp [← h1]⟩
  | case6 acc c cs hsep hw =>
    unfold numGroups at h
    simp only [hsep, hw, if_true, if_false, Bool.false_eq_true] at h
    exact absurd h (by simp)
  | case7 acc c cs hsep hw =>
    unfold numGroups at h
    simp only [hsep, hw, if_true, if_false, Bool.false_eq_true,
      Option.some.injEq, Prod.mk.injEq] at h
    obtain ⟨h1, h2⟩ := h
    exact ⟨[], by simp [← h2], by simp [← h1], by simp [← h1]⟩

theorem numMatch_decomp {t run rest : List Char}
    (h : numMatch t = some (run, rest)) :
    t = run ++ rest ∧ run ≠ [] ∧ endsDigit run := by
  rcases t with _ | ⟨c, cs⟩
  · simp [numMatch] at h
  · simp only [numMatch] at h
    by_cases hd : pyDigit c = true
    · rw [if_pos hd] at h
      obtain ⟨d2, hd1, hd2, hd3⟩ := numGroups_decomp h
      have htk : (c :: cs).takeWhile pyDigit = c :: cs.takeWhile pyDigit :=
        List.takeWhile_cons_of_pos hd
      refine ⟨?_, ?_, hd3 (takeWhile_endsDigit hd)⟩
      · rw [hd2, List.append_assoc, ← hd1]
        exact (List.takeWhile_append_dropWhile _ _).symm
      · rw [hd2, htk]
        simp
    · rw [if_neg hd] at h
      exact absurd h (by simp)


/-! ### Scanning a chunk followed by a placeholder: the match never crosses
the boundary -/

theorem pyDigit_isWordChar {c : Char} (h : pyDigit c = true) :
    isWordChar c = true := by
  simp [isWordChar, h]

theorem dropWhile_append_not_all {p : Char → Bool} :
    ∀ (l₁ l₂ : List Char), l₁.dropWhile p ≠ [] →
      (l₁ ++ l₂).takeWhile p = l₁.takeWhile p ∧
      (l₁ ++ l₂).dropWhile p = l₁.dropWhile p ++ l₂ := by
  intro l₁
  induction l₁ with
  | nil =>
    intro l₂ h
    exact absurd rfl h
  | cons a l ih =>
    intro l₂ h
    by_cases ha : p a = true
    · rw [List.dropWhile_cons_of_pos ha] at h
      obtain ⟨h1, h2⟩ := ih l₂ h
      refine ⟨?_, ?_⟩
      · rw [List.cons_append, List.takeWhile_cons_of_pos ha,
          List.takeWhile_cons_of_pos ha, h1]
      · rw [List.cons_append, List.dropWhile_cons_of_pos ha,
          List.dropWhile_cons_of_pos ha, h2]
    · have ha2 : p a = false := by simpa using ha
      refine ⟨?_, ?_⟩
      · rw [List.cons_append, List.takeWhile_cons_of_neg (by simp [ha2]),
          List.takeWhile_cons_of_neg (by simp [ha2])]
      · rw [List.cons_append, List.dropWhile_cons_of_neg (by simp [ha2]),
          List.dropWhile_cons_of_neg (by simp [ha2]), List.cons_append]

theorem suffix_getLast {l2 l : List Char} (h : l2 <:+ l) (h2 : l2 ≠ []) :
    l2.getLast? = l.getLast? := by
  obtain ⟨pre, hpre⟩ := h
  rw [← hpre, List.getLast?_append_of_ne_nil pre h2]

theorem dropWhile_ne_nil_of_last {p : Char → Bool} {l : List Char} {z : Char}
    (hz : l.getLast? = some z) (hpz : p z = false) : l.dropWhile p ≠ [] := by
  intro h
  have hall : ∀ x ∈ l, p x := List.dropWhile_eq_nil_iff.mp h
  have hmem : z ∈ l := List.mem_of_mem_getLast? hz
  rw [hall z hmem] at hpz
  exact Bool.noConfusion hpz

theorem numGroups_appendP (X : List Char) :
    ∀ (acc s : List Char),
      (∃ z, s.getLast? = some z ∧ isWordChar z = false) →
      numGroups acc (s ++ 'P' :: X) =
        (numGroups acc s).map (fun p => (p.1, p.2 ++ 'P' :: X)) := by
  intro acc s
  induction acc, s using numGroups.induct with
  | case1 acc =>
    rintro ⟨z, hz, _⟩
    simp at hz
  | case2 acc c hsep =>
    rintro ⟨z, hz, hw⟩
    conv_lhs => rw [numGroups.eq_def]
    conv_rhs => rw [numGroups.eq_def]
    simp [hsep, (by decide : pyDigit 'P' = false)]
  | case3 acc c hsep c1 cs hdig r2 hrec ih =>
    rintro ⟨z, hz, hw⟩
    have hzlast : (c1 :: cs).getLast? = some z := by
      rw [← hz, List.getLast?_cons_cons]
    have hzw : pyDigit z = false := by
      by_contra hd
      rw [pyDigit_isWordChar (by simpa using hd)] at hw
      exact Bool.noConfusion hw
    have hdw : (c1 :: cs).dropWhile pyDigit ≠ [] :=
      dropWhile_ne_nil_of_last hzlast hzw
    obtain ⟨htk, hdr⟩ := dropWhile_append_not_all (c1 :: cs) ('P' :: X) hdw
    have hih := ih ⟨z, suffix_getLast (List.dropWhile_suffix pyDigit) hdw ▸
      hzlast, hw⟩
    conv_lhs => rw [numGroups.eq_def]
    conv_rhs => rw [numGroups.eq_def]
    simp only [List.cons_append, hsep, if_true, hdig, hrec]
    rw [show c1 :: (cs ++ 'P' :: X) = (c1 :: cs) ++ 'P' :: X from rfl, htk, hdr,
      hih, hrec]
    simp
  | case4 acc c hsep c1 cs hdig hrec ih =>
    rintro ⟨z, hz, hw⟩
    have hzlast : (c1 :: cs).getLast? = some z := by
      rw [← hz, List.getLast?_cons_cons]
    have hzw : pyDigit z = false := by
      by_contra hd
      rw [pyDigit_isWordChar (by simpa using hd)] at hw
      exact Bool.noConfusion hw
    have hdw : (c1 :: cs).dropWhile pyDigit ≠ [] :=
      dropWhile_ne_nil_of_last hzlast hzw
    obtain ⟨htk, hdr⟩ := dropWhile_append_not_all (c1 :: cs) ('P' :: X) hdw
    have hih := ih ⟨z, suffix_getLast (List.dropWhile_suffix pyDigit) hdw ▸
      hzlast, hw⟩
    conv_lhs => rw [numGroups.eq_def]
    conv_rhs => rw [numGroups.eq_def]
    simp only [List.cons_append, hsep, if_true, hdig, hrec]
    rw [show c1 :: (cs ++ 'P' :: X) = (c1 :: cs) ++ 'P' :: X from rfl, htk, hdr,
      hih, hrec]
    simp
  | case5 acc c hsep c1 cs hdig =>
    rintro ⟨z, hz, hw⟩
    conv_lhs => rw [numGroups.eq_def]
    conv_rhs => rw [numGroups.eq_def]
    simp [hsep, hdig]
  | case6 acc c cs hsep hwc =>
    rintro ⟨z, hz, hw⟩
    conv_lhs => rw [numGroups.eq_def]
    conv_rhs => rw [numGroups.eq_def]
    simp [hsep, hwc]
  | case7 acc c cs hsep hwc =>
    rintro ⟨z, hz, hw⟩
    conv_lhs => rw [numGroups.eq_def]
    conv_rhs => rw [numGroups.eq_def]
    simp [hsep, hwc]


theorem numMatch_appendP (X : List Char) {s : List Char} {z : Char}
    (hz : s.getLast? = some z) (hw : isWordChar z = false) :
    numMatch (s ++ 'P' :: X) =
      (numMatch s).map (fun p => (p.1, p.2 ++ 'P' :: X)) := by
  rcases s with _ | ⟨c, cs⟩
  · simp at hz
  · have hzw : pyDigit z = false := by
      by_contra hd
      rw [pyDigit_isWordChar (by simpa using hd)] at hw
      exact Bool.noConfusion hw
    have hdw : (c :: cs).dropWhile pyDigit ≠ [] :=
      dropWhile_ne_nil_of_last hz hzw
    by_cases hc : pyDigit c = true
    · obtain ⟨htk, hdr⟩ := dropWhile_append_not_all (c :: cs) ('P' :: X) hdw
      have hng := numGroups_appendP X ((c :: cs).takeWhile pyDigit)
        ((c :: cs).dropWhile pyDigit)
        ⟨z, suffix_getLast (List.dropWhile_suffix pyDigit) hdw ▸ hz, hw⟩
      simp only [numMatch, List.cons_append, hc, if_true]
      rw [show c :: (cs ++ 'P' :: X) = (c :: cs) ++ 'P' :: X from rfl, htk, hdr]
      exact hng
    · simp only [numMatch, List.cons_append]
      rw [if_neg hc, if_neg hc]
      simp

/-! ### One-step equations for the scanners -/

theorem subNumGo_nil (pres : List (List Char)) (pw : Bool) :
    subNumGo pres pw [] = ([], pres) := by
  rw [subNumGo.eq_def]

theorem subNumGo_cons_true (pres : List (List Char)) (c : Char)
    (l : List Char) :
    subNumGo pres true (c :: l) =
      (c :: (subNumGo pres (isWordChar c) l).1,
        (subNumGo pres (isWordChar c) l).2) := by
  conv_lhs => rw [subNumGo.eq_def]
  simp

theorem subNumGo_cons_none (pres : List (List Char)) (c : Char)
    (l : List Char) (h : numMatch (c :: l) = none) :
    subNumGo pres false (c :: l) =
      (c :: (subNumGo pres (isWordChar c) l).1,
        (subNumGo pres (isWordChar c) l).2) := by
  conv_lhs => rw [subNumGo.eq_def]
  simp only [Bool.false_eq_true, if_false]
  split
  · rename_i run rest heq
    rw [h] at heq
    exact Option.noConfusion heq
  · rfl

theorem subNumGo_cons_some (pres : List (List Char)) (c : Char)
    (l run rest : List Char) (h : numMatch (c :: l) = some (run, rest)) :
    subNumGo pres false (c :: l) =
      (marker pres.length ++ (subNumGo (pres ++ [run]) true rest).1,
        (subNumGo (pres ++ [run]) true rest).2) := by
  conv_lhs => rw [subNumGo.eq_def]
  simp only [Bool.false_eq_true, if_false]
  split
  · rename_i run2 rest2 heq
    rw [h] at heq
    injection heq with heq2
    injection heq2 with h1 h2
    subst h1
    subst h2
    rfl
  · rename_i heq
    rw [h] at heq
    exact Option.noConfusion heq

theorem subCapGo_nil (pres : List (List Char)) (pw : Bool) :
    subCapGo pres pw [] = ([], pres) := by
  rw [subCapGo.eq_def]

theorem subCapGo_cons_true (pres : List (List Char)) (c : Char)
    (l : List Char) :
    subCapGo pres true (c :: l) =
      (c :: (subCapGo pres (isWordChar c) l).1,
        (subCapGo pres (isWordChar c) l).2) := by
  conv_lhs => rw [subCapGo.eq_def]
  simp

theorem subCapGo_cons_none (pres : List (List Char)) (c : Char)
    (l : List Char) (h : capMatch (c :: l) = none) :
    subCapGo pres false (c :: l) =
      (c :: (subCapGo pres (isWordChar c) l).1,
        (subCapGo pres (isWordChar c) l).2) := by
  conv_lhs => rw [subCapGo.eq_def]
  simp only [Bool.false_eq_true, if_false]
  split
  · rename_i run rest heq
    rw [h] at heq
    exact Option.noConfusion heq
  · rfl

theorem subCapGo_cons_some (pres : List (List Char)) (c : Char)
    (l run rest : List Char) (h : capMatch (c :: l) = some (run, rest)) :
    subCapGo pres false (c :: l) =
      (marker pres.length ++ (subCapGo (pres ++ [run]) true rest).1,
        (subCapGo (pres ++ [run]) true rest).2) := by
  conv_lhs => rw [subCapGo.eq_def]
  simp only [Bool.false_eq_true, if_false]
  split
  · rename_i run2 rest2 heq
    rw [h] at heq
    injection heq with heq2
    injection heq2 with h1 h2
    subst h1
    subst h2
    rfl
  · rename_i heq
    rw [h] at heq
    exact Option.noConfusion heq


/-! ### The scanner walks a placeholder verbatim -/

theorem toDigitsCore_digits :
    ∀ (fuel n : Nat) (ds : List Char), (∀ c ∈ ds, pyDigit c = true) →
      ∀ c ∈ Nat.toDigitsCore 10 fuel n ds, pyDigit c = true := by
  intro fuel
  induction fuel with
  | zero =>
    intro n ds hds
    rw [Nat.toDigitsCore]
    exact hds
  | succ fuel ih =>
    intro n ds hds
    rw [Nat.toDigitsCore]
    have hd : ∀ c ∈ (n % 10).digitChar :: ds, pyDigit c = true := by
      intro c hc
      rcases List.mem_cons.mp hc with h1 | h1
      · rw [h1]
        exact (by decide : ∀ m < 10, pyDigit (Nat.digitChar m) = true)
          (n % 10) (Nat.mod_lt n (by omega))
      · exact hds c h1
    by_cases hz : n / 10 = 0
    · simp only [hz, if_true]
      exact hd
    · simp only [hz, if_false]
      exact ih (n / 10) _ hd

theorem repr_digits (n : Nat) : ∀ c ∈ (Nat.repr n).toList, pyDigit c = true := by
  have he : (Nat.repr n).toList = Nat.toDigitsCore 10 (n + 1) n [] := rfl
  rw [he]
  exact toDigitsCore_digits (n + 1) n [] (by intro c hc; simp at hc)

theorem marker_chars (j : Nat) : ∀ c ∈ marker j, isWordChar c = true := by
  intro c hc
  rw [marker] at hc
  have hlit : ∀ d ∈ "PRESERVED_".toList, isWordChar d = true := by decide
  rcases List.mem_append.mp hc with h1 | h1
  · exact hlit c h1
  · exact pyDigit_isWordChar (repr_digits j c h1)

theorem numMatch_cons_nondigit {c : Char} (l : List Char)
    (hc : pyDigit c = false) : numMatch (c :: l) = none := by
  simp only [numMatch]
  rw [if_neg (by simp [hc])]

theorem subNumGo_words :
    ∀ (w : List Char), (∀ c ∈ w, isWordChar c = true) →
      ∀ (pres : List (List Char)) (X : List Char),
        subNumGo pres true (w ++ X) =
          (w ++ (subNumGo pres true X).1, (subNumGo pres true X).2) := by
  intro w
  induction w with
  | nil =>
    intro _ pres X
    simp
  | cons c w2 ih =>
    intro hw pres X
    have hc : isWordChar c = true := hw c (List.mem_cons_self _ _)
    rw [List.cons_append, subNumGo_cons_true, hc,
      ih (fun d hd => hw d (List.mem_cons_of_mem _ hd)) pres X]
    simp

theorem subNumGo_marker (pres : List (List Char)) (pw : Bool) (j : Nat)
    (X : List Char) :
    subNumGo pres pw (marker j ++ X) =
      (marker j ++ (subNumGo pres true X).1, (subNumGo pres true X).2) := by
  have hsplit : marker j = 'P' :: ("RESERVED_".toList ++ (Nat.repr j).toList) := by
    rw [marker]
    rfl
  have hWw : ∀ c ∈ "RESERVED_".toList ++ (Nat.repr j).toList,
      isWordChar c = true := by
    intro c hc
    apply marker_chars j
    rw [hsplit]
    exact List.mem_cons_of_mem _ hc
  have hPw : isWordChar 'P' = true := by decide
  rw [hsplit, List.cons_append]
  cases pw with
  | true =>
    rw [subNumGo_cons_true, hPw, subNumGo_words _ hWw pres X]
    simp
  | false =>
    rw [subNumGo_cons_none pres 'P' _ (numMatch_cons_nondigit _ (by decide)),
      hPw, subNumGo_words _ hWw pres X]
    simp


/-! ### The generic decomposition of one scanning pass -/

theorem endsNonWord_cons {c : Char} {ch : List Char}
    (h : ch = [] → isWordChar c = false) (h2 : endsNonWord ch) :
    endsNonWord (c :: ch) := by
  rcases ch with _ | ⟨d, ds⟩
  · exact Or.inr ⟨c, rfl, h rfl⟩
  · rcases h2 with h3 | ⟨z, hz, hw⟩
    · exact absurd h3 (by simp)
    · exact Or.inr ⟨z, by rw [List.getLast?_cons_cons]; exact hz, hw⟩

theorem subCapGo_spec :
    ∀ (n : Nat) (t : List Char), t.length ≤ n →
      ∀ (pres : List (List Char)) (pw : Bool),
        ∃ (ps : List (List Char × List Char)) (tail : List Char),
          subCapGo pres pw t =
            (maskedOf pres.length ps tail, pres ++ ps.map Prod.snd) ∧
          t = origOf ps tail ∧
          (∀ pr ∈ ps, endsNonWord pr.1) ∧
          (∀ m ps2, ps = ([], m) :: ps2 → pw = false) := by
  intro n
  induction n with
  | zero =>
    intro t ht pres pw
    rw [List.eq_nil_of_length_eq_zero (Nat.le_zero.mp ht)]
    refine ⟨[], [], ?_, rfl, by simp, by simp⟩
    rw [subCapGo_nil]
    simp [maskedOf]
  | succ n ih =>
    intro t ht pres pw
    rcases t with _ | ⟨c, cs⟩
    · refine ⟨[], [], ?_, rfl, by simp, by simp⟩
      rw [subCapGo_nil]
      simp [maskedOf]
    · have hcs : cs.length ≤ n := by
        simp only [List.length_cons] at ht
        omega
      have hstep : subCapGo pres pw (c :: cs) =
            (c :: (subCapGo pres (isWordChar c) cs).1,
              (subCapGo pres (isWordChar c) cs).2) ∨
          (pw = false ∧ ∃ run rest, capMatch (c :: cs) = some (run, rest) ∧
            subCapGo pres pw (c :: cs) =
              (marker pres.length ++ (subCapGo (pres ++ [run]) true rest).1,
                (subCapGo (pres ++ [run]) true rest).2)) := by
        cases pw with
        | true => exact Or.inl (subCapGo_cons_true pres c cs)
        | false =>
          rcases hmv : capMatch (c :: cs) with _ | ⟨run, rest⟩
          · exact Or.inl (subCapGo_cons_none pres c cs hmv)
          · exact Or.inr ⟨rfl, run, rest, rfl,
              subCapGo_cons_some pres c cs run rest hmv⟩
      rcases hstep with hstep | ⟨hpw, run, rest, hm, hstep⟩
      · obtain ⟨ps2, tail2, h1, h2, h3, h4⟩ := ih cs hcs pres (isWordChar c)
        rcases ps2 with _ | ⟨⟨ch, m⟩, ps3⟩
        · refine ⟨[], c :: tail2, ?_, ?_, by simp, by simp⟩
          · rw [hstep, h1]
            simp [maskedOf]
          · simp only [origOf] at h2 ⊢
            rw [← h2]
        · refine ⟨(c :: ch, m) :: ps3, tail2, ?_, ?_, ?_, ?_⟩
          · rw [hstep, h1]
            simp [maskedOf]
          · simp only [origOf] at h2 ⊢
            rw [h2]
            simp
          · intro pr hpr
            rcases List.mem_cons.mp hpr with hh | hh
            · rw [hh]
              refine endsNonWord_cons ?_ (h3 (ch, m) (List.mem_cons_self _ _))
              intro hch
              subst hch
              exact h4 m ps3 rfl
            · exact h3 pr (List.mem_cons_of_mem _ hh)
          · intro m2 ps4 heq
            injection heq with he1 _
            injection he1 with he2 _
            exact absurd he2 (List.cons_ne_nil c ch)
      · obtain ⟨hsum, hrun, hbd⟩ := capMatch_decomp hm
        have hrest : rest.length ≤ n := by
          have := capMatch_length hm
          simp only [List.length_cons] at this ht
          omega
        obtain ⟨ps2, tail2, h1, h2, h3, _⟩ := ih rest hrest (pres ++ [run]) true
        refine ⟨([], run) :: ps2, tail2, ?_, ?_, ?_, fun _ _ _ => hpw⟩
        · rw [hstep, h1]
          simp [maskedOf]
        · simp only [origOf, List.nil_append]
          rw [← h2, hsum]
        · intro pr hpr
          rcases List.mem_cons.mp hpr with hh | hh
          · rw [hh]
            exact Or.inl rfl
          · exact h3 pr hh

theorem subNumGo_spec :
    ∀ (n : Nat) (t : List Char), t.length ≤ n →
      ∀ (pres : List (List Char)) (pw : Bool),
        ∃ (ps : List (List Char × List Char)) (tail : List Char),
          subNumGo pres pw t =
            (maskedOf pres.length ps tail, pres ++ ps.map Prod.snd) ∧
          t = origOf ps tail ∧
          (∀ pr ∈ ps, endsNonWord pr.1) ∧
          (∀ m ps2, ps = ([], m) :: ps2 → pw = false) := by
  intro n
  induction n with
  | zero =>
    intro t ht pres pw
    rw [List.eq_nil_of_length_eq_zero (Nat.le_zero.mp ht)]
    refine ⟨[], [], ?_, rfl, by simp, by simp⟩
    rw [subNumGo_nil]
    simp [maskedOf]
  | succ n ih =>
    intro t ht pres pw
    rcases t with _ | ⟨c, cs⟩
    · refine ⟨[], [], ?_, rfl, by simp, by simp⟩
      rw [subNumGo_nil]
      simp [maskedOf]
    · have hcs : cs.length ≤ n := by
        simp only [List.length_cons] at ht
        omega
      have hstep : subNumGo pres pw (c :: cs) =
            (c :: (subNumGo pres (isWordChar c) cs).1,
              (subNumGo pres (isWordChar c) cs).2) ∨
          (pw = false ∧ ∃ run rest, numMatch (c :: cs) = some (run, rest) ∧
            subNumGo pres pw (c :: cs) =
              (marker pres.length ++ (subNumGo (pres ++ [run]) true rest).1,
                (subNumGo (pres ++ [run]) true rest).2)) := by
        cases pw with
        | true => exact Or.inl (subNumGo_cons_true pres c cs)
        | false =>
          rcases hmv : numMatch (c :: cs) with _ | ⟨run, rest⟩
          · exact Or.inl (subNumGo_cons_none pres c cs hmv)
          · exact Or.inr ⟨rfl, run, rest, rfl,
              subNumGo_cons_some pres c cs run rest hmv⟩
      rcases hstep with hstep | ⟨hpw, run, rest, hm, hstep⟩
      · obtain ⟨ps2, tail2, h1, h2, h3, h4⟩ := ih cs hcs pres (isWordChar c)
        rcases ps2 with _ | ⟨⟨ch, m⟩, ps3⟩
        · refine ⟨[], c :: tail2, ?_, ?_, by simp, by simp⟩
          · rw [hstep, h1]
            simp [maskedOf]
          · simp only [origOf] at h2 ⊢
            rw [← h2]
        · refine ⟨(c :: ch, m) :: ps3, tail2, ?_, ?_, ?_, ?_⟩
          · rw [hstep, h1]
            simp [maskedOf]
          · simp only [origOf] at h2 ⊢
            rw [h2]
            simp
          · intro pr hpr
            rcases List.mem_cons.mp hpr with hh | hh
            · rw [hh]
              refine endsNonWord_cons ?_ (h3 (ch, m) (List.mem_cons_self _ _))
              intro hch
              subst hch
              exact h4 m ps3 rfl
            · exact h3 pr (List.mem_cons_of_mem _ hh)
          · intro m2 ps4 heq
            injection heq with he1 _
            injection he1 with he2 _
            exact absurd he2 (List.cons_ne_nil c ch)
      · obtain ⟨hsum, hrun, hend⟩ := numMatch_decomp hm
        have hrest : rest.length ≤ n := by
          have := numMatch_length hm
          simp only [List.length_cons] at this ht
          omega
        obtain ⟨ps2, tail2, h1, h2, h3, _⟩ := ih rest hrest (pres ++ [run]) true
        refine ⟨([], run) :: ps2, tail2, ?_, ?_, ?_, fun _ _ _ => hpw⟩
        · rw [hstep, h1]
          simp [maskedOf]
        · simp only [origOf, List.nil_append]
          rw [← h2, hsum]
        · intro pr hpr
          rcases List.mem_cons.mp hpr with hh | hh
          · rw [hh]
            exact Or.inl rfl
          · exact h3 pr hh


/-! ### Segment lists of a single pass -/

theorem maskedOf_append :
    ∀ (ps : List (List Char × List Char)) (k : Nat) (t Y : List Char),
      maskedOf k ps (t ++ Y) = maskedOf k ps t ++ Y := by
  intro ps
  induction ps with
  | nil => intro k t Y; rfl
  | cons pr ps2 ih =>
    obtain ⟨c, m⟩ := pr
    intro k t Y
    simp only [maskedOf, ih, List.append_assoc]

theorem renderCut_append (cut : Nat) :
    ∀ (A B : List Seg), renderCut cut (A ++ B) =
      renderCut cut A ++ renderCut cut B := by
  intro A
  induction A with
  | nil => intro B; rfl
  | cons seg A2 ih =>
    intro B
    rcases seg with c | ⟨j, term⟩
    · simp only [List.cons_append, renderCut, List.append_eq, ih,
        List.append_assoc]
    · simp only [List.cons_append, renderCut, List.append_eq, ih,
        List.append_assoc]

theorem slotIdxs_append :
    ∀ (A B : List Seg), slotIdxs (A ++ B) = slotIdxs A ++ slotIdxs B := by
  intro A
  induction A with
  | nil => intro B; rfl
  | cons seg A2 ih =>
    intro B
    rcases seg with c | ⟨j, term⟩
    · simp only [List.cons_append, slotIdxs, List.append_eq, ih]
    · simp only [List.cons_append, slotIdxs, List.append_eq, ih]

theorem renderCut0_segsOfNum :
    ∀ (ps : List (List Char × List Char)) (k : Nat) (tail : List Char),
      renderCut 0 (segsOfNum k ps tail) = maskedOf k ps tail := by
  intro ps
  induction ps with
  | nil =>
    intro k tail
    simp [segsOfNum, renderCut, maskedOf]
  | cons pr ps2 ih =>
    obtain ⟨c, m⟩ := pr
    intro k tail
    simp [segsOfNum, renderCut, maskedOf, ih]

theorem renderCutM_segsOfNum :
    ∀ (ps : List (List Char × List Char)) (k : Nat) (tail : List Char)
      (M : Nat), k + ps.length ≤ M →
      renderCut M (segsOfNum k ps tail) = origOf ps tail := by
  intro ps
  induction ps with
  | nil =>
    intro k tail M _
    simp [segsOfNum, renderCut, origOf]
  | cons pr ps2 ih =>
    obtain ⟨c, m⟩ := pr
    intro k tail M hM
    simp only [List.length_cons] at hM
    have hk : k < M := by omega
    simp only [segsOfNum, renderCut, origOf]
    rw [if_pos hk, ih (k + 1) tail M (by omega)]
    simp [List.append_assoc]

theorem segsOfNum_slots :
    ∀ (ps : List (List Char × List Char)) (k : Nat) (tail : List Char)
      (j : Nat) (t2 : List Char), Seg.slot j t2 ∈ segsOfNum k ps tail →
      ∃ (i : Nat) (h : i < ps.length), j = k + i ∧ t2 = (ps.get ⟨i, h⟩).2 := by
  intro ps
  induction ps with
  | nil =>
    intro k tail j t2 h
    simp only [segsOfNum, List.mem_singleton] at h
    exact Seg.noConfusion h
  | cons pr ps2 ih =>
    obtain ⟨c, m⟩ := pr
    intro k tail j t2 h
    simp only [segsOfNum, List.mem_cons] at h
    rcases h with h1 | h1 | h1
    · exact Seg.noConfusion h1
    · injection h1 with e1 e2
      exact ⟨0, by simp, by omega, by simp [← e2]⟩
    · obtain ⟨i, hi, he1, he2⟩ := ih (k + 1) tail j t2 h1
      exact ⟨i + 1, by simp only [List.length_cons]; omega, by omega,
        by simpa using he2⟩

theorem slotIdxs_segsOfNum :
    ∀ (ps : List (List Char × List Char)) (k : Nat) (tail : List Char),
      slotIdxs (segsOfNum k ps tail) = List.range' k ps.length := by
  intro ps
  induction ps with
  | nil => intro k tail; rfl
  | cons pr ps2 ih =>
    obtain ⟨c, m⟩ := pr
    intro k tail
    simp only [segsOfNum, slotIdxs, ih, List.length_cons]
    rfl


/-! ### Scanning a chunk that is followed by placeholder-led text -/

theorem endsNonWord_suffix {l2 l : List Char} (h : l2 <:+ l)
    (hl : endsNonWord l) : endsNonWord l2 := by
  rcases l2 with _ | ⟨d, ds⟩
  · exact Or.inl rfl
  · rcases hl with h1 | ⟨z, hz, hw⟩
    · subst h1
      rw [List.suffix_nil] at h
      exact absurd h (by simp)
    · exact Or.inr ⟨z, by rw [suffix_getLast h (by simp)]; exact hz, hw⟩

theorem subNumGo_chunk :
    ∀ (n : Nat) (t : List Char), t.length ≤ n → endsNonWord t →
      ∀ (X : List Char) (pres : List (List Char)) (pw : Bool),
        ∃ (ps : List (List Char × List Char)) (tailc : List Char) (pw2 : Bool),
          t = origOf ps tailc ∧
          subNumGo pres pw (t ++ 'P' :: X) =
            (maskedOf pres.length ps (tailc ++
                (subNumGo (pres ++ ps.map Prod.snd) pw2 ('P' :: X)).1),
              (subNumGo (pres ++ ps.map Prod.snd) pw2 ('P' :: X)).2) := by
  intro n
  induction n with
  | zero =>
    intro t ht _ X pres pw
    rw [List.eq_nil_of_length_eq_zero (Nat.le_zero.mp ht)]
    exact ⟨[], [], pw, rfl, by simp [maskedOf]⟩
  | succ n ih =>
    intro t ht hend X pres pw
    rcases t with _ | ⟨c, cs⟩
    · exact ⟨[], [], pw, rfl, by simp [maskedOf]⟩
    · obtain ⟨z, hz, hw⟩ : ∃ z, (c :: cs).getLast? = some z ∧
          isWordChar z = false := by
        rcases hend with h1 | h1
        · exact absurd h1 (by simp)
        · exact h1
      have hcs : cs.length ≤ n := by
        simp only [List.length_cons] at ht
        omega
      have hcsend : endsNonWord cs :=
        endsNonWord_suffix ⟨[c], rfl⟩ hend
      have happ := numMatch_appendP X hz hw
      have hstep : subNumGo pres pw ((c :: cs) ++ 'P' :: X) =
            (c :: (subNumGo pres (isWordChar c) (cs ++ 'P' :: X)).1,
              (subNumGo pres (isWordChar c) (cs ++ 'P' :: X)).2) ∨
          (∃ run rest, numMatch (c :: cs) = some (run, rest) ∧
            subNumGo pres pw ((c :: cs) ++ 'P' :: X) =
              (marker pres.length ++
                  (subNumGo (pres ++ [run]) true (rest ++ 'P' :: X)).1,
                (subNumGo (pres ++ [run]) true (rest ++ 'P' :: X)).2)) := by
        cases pw with
        | true => exact Or.inl (subNumGo_cons_true pres c (cs ++ 'P' :: X))
        | false =>
          rcases hmv : numMatch (c :: cs) with _ | ⟨run, rest⟩
          · rw [hmv] at happ
            simp only [Option.map_none'] at happ
            exact Or.inl (subNumGo_cons_none pres c (cs ++ 'P' :: X) happ)
          · rw [hmv] at happ
            simp only [Option.map_some'] at happ
            refine Or.inr ⟨run, rest, rfl, ?_⟩
            exact subNumGo_cons_some pres c (cs ++ 'P' :: X) run
              (rest ++ 'P' :: X) happ
      rcases hstep with hstep | ⟨run, rest, hm, hstep⟩
      · obtain ⟨ps2, tailc2, pw2, h1, h2⟩ :=
          ih cs hcs hcsend X pres (isWordChar c)
        rcases ps2 with _ | ⟨⟨ch, m⟩, ps3⟩
        · refine ⟨[], c :: tailc2, pw2, ?_, ?_⟩
          · simp only [origOf] at h1 ⊢
            rw [← h1]
          · rw [hstep, h2]
            simp [maskedOf]
        · refine ⟨(c :: ch, m) :: ps3, tailc2, pw2, ?_, ?_⟩
          · simp only [origOf] at h1 ⊢
            rw [h1]
            simp
          · rw [hstep, h2]
            simp [maskedOf]
      · obtain ⟨hsum, hrun, hdig⟩ := numMatch_decomp hm
        have hrsuf : rest <:+ c :: cs := ⟨run, hsum.symm⟩
        have hrend : endsNonWord rest := endsNonWord_suffix hrsuf hend
        have hrest : rest.length ≤ n := by
          have := numMatch_length hm
          simp only [List.length_cons] at this ht
          omega
        obtain ⟨ps2, tailc2, pw2, h1, h2⟩ :=
          ih rest hrest hrend X (pres ++ [run]) true
        refine ⟨([], run) :: ps2, tailc2, pw2, ?_, ?_⟩
        · simp only [origOf, List.nil_append]
          rw [← h1, hsum]
        · rw [hstep, h2]
          simp [maskedOf]


theorem marker_cons (j : Nat) :
    marker j = 'P' :: ("RESERVED_".toList ++ (Nat.repr j).toList) := by
  rw [marker]
  rfl

theorem get?_some_of_lt {l : List (List Char × List Char)} {i : Nat}
    (h : i < l.length) : ∃ pr, l.get? i = some pr := by
  rw [List.get?_eq_getElem?, List.getElem?_eq_getElem h]
  exact ⟨_, rfl⟩

/-- The second scanning pass over the masked text of the first pass: the
placeholders of the first pass are walked verbatim, the literal chunks are
rescanned for numbers, and the result is the rendering of a well-formed
segment list whose slot indices are the first-pass block and the fresh
second-pass block. -/
theorem subNumGo_over_masked :
    ∀ (ps1 : List (List Char × List Char)) (k : Nat) (tail1 : List Char)
      (pres : List (List Char)) (pw : Bool),
      (∀ pr ∈ ps1, endsNonWord pr.1) →
      k + ps1.length ≤ pres.length →
      (∀ i, i < ps1.length →
        pres.get? (k + i) = (ps1.get? i).map Prod.snd) →
      ∃ (L : List Seg) (terms2 : List (List Char)),
        subNumGo pres pw (maskedOf k ps1 tail1) =
          (renderCut 0 L, pres ++ terms2) ∧
        (∀ M, pres.length + terms2.length ≤ M →
          renderCut M L = origOf ps1 tail1) ∧
        (∀ j t2, Seg.slot j t2 ∈ L → (pres ++ terms2).get? j = some t2) ∧
        (∀ j, j ∈ slotIdxs L ↔
          ((k ≤ j ∧ j < k + ps1.length) ∨
            (pres.length ≤ j ∧ j < pres.length + terms2.length))) ∧
        (slotIdxs L).Nodup := by
  intro ps1
  induction ps1 with
  | nil =>
    intro k tail1 pres pw _ hk _
    obtain ⟨ps, tailp, h1, h2, _, _⟩ :=
      subNumGo_spec tail1.length tail1 (le_refl _) pres pw
    refine ⟨segsOfNum pres.length ps tailp, ps.map Prod.snd, ?_, ?_, ?_, ?_, ?_⟩
    · show subNumGo pres pw tail1 = _
      rw [h1, renderCut0_segsOfNum]
    · intro M hM
      rw [renderCutM_segsOfNum ps pres.length tailp M
        (by simp only [List.length_map] at hM; omega)]
      simp only [origOf]
      exact h2.symm
    · intro j t2 hmem
      obtain ⟨i, hi, he1, he2⟩ := segsOfNum_slots ps pres.length tailp j t2 hmem
      rw [he1, List.get?_append_right (by omega)]
      have hi2 : i < (ps.map Prod.snd).length := by
        simp only [List.length_map]
        exact hi
      rw [show pres.length + i - pres.length = i from by omega,
        List.get?_eq_getElem?, List.getElem?_eq_getElem hi2]
      simp only [Option.some.injEq, List.getElem_map]
      rw [he2]
      rfl
    · intro j
      rw [slotIdxs_segsOfNum, List.mem_range'_1]
      simp only [List.length_nil, List.length_map]
      omega
    · rw [slotIdxs_segsOfNum]
      exact List.nodup_range' _ _
  | cons pr1 ps1 ih =>
    obtain ⟨σ, m⟩ := pr1
    intro k tail1 pres pw hends hk hpres
    have hendσ : endsNonWord σ := hends (σ, m) (List.mem_cons_self _ _)
    have hkp : k < pres.length := by
      simp only [List.length_cons] at hk
      omega
    set rest2 := maskedOf (k + 1) ps1 tail1 with hrest2
    have hmasked : maskedOf k ((σ, m) :: ps1) tail1 =
        σ ++ (marker k ++ rest2) := by
      simp only [maskedOf, ← hrest2, List.append_assoc]
    obtain ⟨ps_c, tailc, pw2, hc1, hc2⟩ :=
      subNumGo_chunk σ.length σ (le_refl _) hendσ
        (("RESERVED_".toList ++ (Nat.repr k).toList) ++ rest2) pres pw
    have hcont : 'P' :: (("RESERVED_".toList ++ (Nat.repr k).toList) ++ rest2) =
        marker k ++ rest2 := by
      rw [marker_cons]
      simp
    rw [hcont] at hc2
    rw [subNumGo_marker (pres ++ List.map Prod.snd ps_c) pw2 k rest2] at hc2
    obtain ⟨L2, terms2b, hI1, hI2, hI3, hI4, hI5⟩ :=
      ih (k + 1) tail1 (pres ++ List.map Prod.snd ps_c) true
        (fun pr hpr => hends pr (List.mem_cons_of_mem _ hpr))
        (by simp only [List.length_append, List.length_map,
              List.length_cons] at hk ⊢
            omega)
        (by intro i hi
            simp only [List.length_cons] at hk
            rw [List.get?_append (by omega)]
            have := hpres (i + 1) (by simp only [List.length_cons]; omega)
            rw [show k + 1 + i = k + (i + 1) from by omega, this]
            rfl)
    rw [hI1] at hc2
    refine ⟨segsOfNum pres.length ps_c tailc ++ (Seg.slot k m :: L2),
      List.map Prod.snd ps_c ++ terms2b, ?_, ?_, ?_, ?_, ?_⟩
    · rw [hmasked, hc2]
      simp only [Prod.mk.injEq]
      constructor
      · rw [maskedOf_append, renderCut_append, renderCut0_segsOfNum]
        simp only [renderCut]
        rw [if_neg (Nat.not_lt_zero k)]
      · simp [List.append_assoc]
    · intro M hM
      simp only [List.length_append, List.length_map] at hM
      rw [renderCut_append, renderCutM_segsOfNum ps_c pres.length tailc M
        (by omega)]
      simp only [renderCut]
      rw [if_pos (by omega : k < M), hI2 M
        (by simp only [List.length_append, List.length_map]; omega)]
      simp only [origOf]
      rw [← hc1]
      simp [List.append_assoc]
    · intro j t2 hmem
      rw [List.mem_append, List.mem_cons] at hmem
      rcases hmem with hmem | hmem | hmem
      · obtain ⟨i, hi, he1, he2⟩ :=
          segsOfNum_slots ps_c pres.length tailc j t2 hmem
        have hi2 : i < (List.map Prod.snd ps_c).length := by
          simp only [List.length_map]
          exact hi
        rw [he1, List.get?_append_right (by omega),
          show pres.length + i - pres.length = i from by omega,
          List.get?_eq_getElem?, List.getElem?_append_left hi2,
          List.getElem?_eq_getElem hi2]
        simp only [Option.some.injEq, List.getElem_map]
        rw [he2]
        rfl
      · injection hmem with he1 he2
        subst he1
        subst he2
        rw [List.get?_append hkp]
        have := hpres 0 (by simp)
        rw [Nat.add_zero] at this
        rw [this]
        rfl
      · have := hI3 j t2 hmem
        rw [List.append_assoc] at this
        exact this
    · intro j
      rw [slotIdxs_append]
      simp only [slotIdxs, List.mem_append, List.mem_cons,
        slotIdxs_segsOfNum, List.mem_range'_1, hI4 j]
      simp only [List.length_append, List.length_map, List.length_cons] at hk ⊢
      omega
    · rw [slotIdxs_append]
      refine List.Nodup.append (slotIdxs_segsOfNum ps_c pres.length tailc ▸
        List.nodup_range' _ _) ?_ ?_
      · simp only [slotIdxs]
        rw [List.nodup_cons]
        refine ⟨?_, hI5⟩
        intro hkin
        have := (hI4 k).mp hkin
        simp only [List.length_append, List.length_map] at this
        omega
      · intro a ha hb
        rw [slotIdxs_segsOfNum, List.mem_range'_1] at ha
        simp only [slotIdxs] at hb
        rw [List.mem_cons] at hb
        simp only [List.length_cons] at hk
        rcases hb with hb | hb
        · omega
        · have := (hI4 a).mp hb
          simp only [List.length_append, List.length_map] at this
          omega


/-! ### The two-pass characterisation of `preserve_special_terms` and the
round trip -/

theorem lt_length_of_get? {l : List (List Char)} {j : Nat} {t2 : List Char}
    (h : l.get? j = some t2) : j < l.length := by
  by_contra hn
  rw [List.get?_eq_none.mpr (by omega)] at h
  exact Option.noConfusion h

theorem preserve_spec (t : List Char) :
    ∃ L : List Seg,
      (preserve_special_terms t).1 = renderCut 0 L ∧
      (∀ M, (preserve_special_terms t).2.length ≤ M → renderCut M L = t) ∧
      (∀ j t2, Seg.slot j t2 ∈ L →
        (preserve_special_terms t).2.get? j = some t2) ∧
      (∀ j, j ∈ slotIdxs L ↔ j < (preserve_special_terms t).2.length) ∧
      (slotIdxs L).Nodup := by
  obtain ⟨ps1, tail1, h1, h2, h3, _⟩ :=
    subCapGo_spec t.length t (le_refl _) [] false
  simp only [List.length_nil, List.nil_append] at h1
  obtain ⟨L, terms2, g1, g2, g3, g4, g5⟩ :=
    subNumGo_over_masked ps1 0 tail1 (List.map Prod.snd ps1) false h3
      (by simp)
      (by intro i hi
          rw [Nat.zero_add, List.get?_map])
  have hP : preserve_special_terms t =
      (renderCut 0 L, List.map Prod.snd ps1 ++ terms2) := by
    simp only [preserve_special_terms, h1, g1]
  refine ⟨L, ?_, ?_, ?_, ?_, g5⟩
  · rw [hP]
  · intro M hM
    rw [hP] at hM
    simp only [List.length_append, List.length_map] at hM
    rw [g2 M (by simp only [List.length_map]; omega)]
    exact h2.symm
  · intro j t2 hmem
    rw [hP]
    exact g3 j t2 hmem
  · intro j
    rw [hP, g4 j]
    simp only [List.length_append, List.length_map]
    omega

theorem mem_slotIdxs_slot :
    ∀ (L : List Seg) (j : Nat), j ∈ slotIdxs L → ∃ t2, Seg.slot j t2 ∈ L := by
  intro L
  induction L with
  | nil =>
    intro j h
    simp [slotIdxs] at h
  | cons seg L2 ih =>
    intro j h
    rcases seg with c | ⟨j2, t2⟩
    · simp only [slotIdxs] at h
      obtain ⟨t2, ht⟩ := ih j h
      exact ⟨t2, List.mem_cons_of_mem _ ht⟩
    · simp only [slotIdxs, List.mem_cons] at h
      rcases h with h | h
      · subst h
        exact ⟨t2, List.mem_cons_self _ _⟩
      · obtain ⟨t3, ht⟩ := ih j h
        exact ⟨t3, List.mem_cons_of_mem _ ht⟩

theorem marker_infix_renderCut0 :
    ∀ (L : List Seg) (j : Nat) (t2 : List Char), Seg.slot j t2 ∈ L →
      marker j <:+: renderCut 0 L := by
  intro L
  induction L with
  | nil =>
    intro j t2 h
    simp at h
  | cons seg L2 ih =>
    intro j t2 h
    rcases List.mem_cons.mp h with h1 | h1
    · rw [← h1]
      simp only [renderCut, if_neg (Nat.not_lt_zero j)]
      exact (List.prefix_append _ _).isInfix
    · rcases seg with c | ⟨j2, t3⟩
      · simp only [renderCut]
        exact (ih j t2 h1).trans (List.suffix_append c _).isInfix
      · simp only [renderCut, if_neg (Nat.not_lt_zero j2)]
        exact (ih j t2 h1).trans (List.suffix_append (marker j2) _).isInfix

/-- C2 (amended): for every input text that contains no occurrence of the
literal `PRESERVED` and for which the scan produces at most ten preserved
terms, `restore_preserved_terms` applied to the output of
`preserve_special_terms` reconstructs the original text exactly. -/
theorem C2_amended_roundtrip (t : List Char)
    (hclean : ¬ pres9 <:+: t)
    (hlen : (preserve_special_terms t).2.length ≤ 10) :
    restore_preserved_terms (preserve_special_terms t).1
      (preserve_special_terms t).2 = t := by
  obtain ⟨L, p1, p2, p3, p4, p5⟩ := preserve_spec t
  have hN : ∀ j t2, Seg.slot j t2 ∈ L →
      j < (preserve_special_terms t).2.length :=
    fun j t2 hm => lt_length_of_get? (p3 j t2 hm)
  have hclean2 : ¬ pres9 <:+:
      renderCut (preserve_special_terms t).2.length L := by
    rw [p2 _ (le_refl _)]
    exact hclean
  have hr := restore_all (preserve_special_terms t).2 rfl hlen hN p3 p5 hclean2
    (preserve_special_terms t).2.length 0 (by omega)
  rw [List.drop_zero] at hr
  rw [restore_preserved_terms, p1, hr, p2 _ (le_refl _)]

/-- Concrete round trip: the amended C2 theorem applied to the input
`Go on 12.`. -/
theorem C2_amended_roundtrip_witness :
    ¬ pres9 <:+: "Go on 12.".toList ∧
    (preserve_special_terms "Go on 12.".toList).2.length ≤ 10 ∧
    restore_preserved_terms (preserve_special_terms "Go on 12.".toList).1
      (preserve_special_terms "Go on 12.".toList).2 = "Go on 12.".toList := by
  refine ⟨by decide, ?_, ?_⟩
  · rw [preserveF_eq]
    decide
  · exact C2_amended_roundtrip _ (by decide) (by rw [preserveF_eq]; decide)

/-- C7 (amended): for every input text that contains no occurrence of the
literal `PRESERVED` and at most ten preserved terms, the placeholders
occurring in the masked text are exactly `PRESERVED_j` for the contiguous
index block `j < N`, where `N` is the number of preserved terms (stated for
single-digit indices, the only ones that can arise under the bound). -/
theorem C7_amended (t : List Char)
    (hclean : ¬ pres9 <:+: t)
    (hlen : (preserve_special_terms t).2.length ≤ 10) :
    ∀ j, j < 10 →
      (marker j <:+: (preserve_special_terms t).1 ↔
        j < (preserve_special_terms t).2.length) := by
  obtain ⟨L, p1, p2, p3, p4, p5⟩ := preserve_spec t
  have hslots : ∀ j2 t2, Seg.slot j2 t2 ∈ L →
      j2 < (preserve_special_terms t).2.length :=
    fun j2 t2 hm => lt_length_of_get? (p3 j2 t2 hm)
  have htL : renderCut (preserve_special_terms t).2.length L = t :=
    p2 _ (le_refl _)
  intro j hj
  rw [p1]
  constructor
  · intro hocc
    by_contra hnot
    obtain ⟨hpre, hinf⟩ :=
      altOf_infix 0 (preserve_special_terms t).2.length L hslots
    have hheadC : ¬ pres9 <:+: (altOf 0 L).1 := by
      intro h
      exact hclean (htL ▸ h.trans hpre.isInfix)
    have hcond : ∀ p ∈ (altOf 0 L).2,
        p.1 < 10 ∧ p.1 ≠ j ∧ ¬ pres9 <:+: p.2 := by
      intro p hp
      obtain ⟨t2, hmem⟩ := altOf_tail_slot 0 L p hp
      have hpN : p.1 < (preserve_special_terms t).2.length :=
        hslots p.1 t2 hmem
      refine ⟨lt_of_lt_of_le hpN hlen, by omega, ?_⟩
      intro h
      exact hclean (htL ▸ h.trans (hinf p hp))
    have heq := pyReplace_altTail_noocc hj [] (altOf 0 L).2 (altOf 0 L).1
      hheadC hcond
    have hno := not_infix_of_pyReplace_eq (marker_ne_nil j) heq
    rw [← altOf_render 0 L] at hno
    exact hno hocc
  · intro hjN
    obtain ⟨t2, hmem⟩ := mem_slotIdxs_slot L j ((p4 j).mpr hjN)
    exact marker_infix_renderCut0 L j t2 hmem

/-- Concrete instance of the amended C7 theorem on the input `Go on 12.`:
two terms are preserved, `PRESERVED_0` occurs in the masked text and
`PRESERVED_5` does not. -/
theorem C7_amended_witness :
    ¬ pres9 <:+: "Go on 12.".toList ∧
    (preserve_special_terms "Go on 12.".toList).2.length ≤ 10 ∧
    marker 0 <:+: (preserve_special_terms "Go on 12.".toList).1 ∧
    ¬ marker 5 <:+: (preserve_special_terms "Go on 12.".toList).1 := by
  have h2 : (preserve_special_terms "Go on 12.".toList).2.length ≤ 10 := by
    rw [preserveF_eq]
    decide
  refine ⟨by decide, h2, ?_, ?_⟩
  · exact (C7_amended _ (by decide) h2 0 (by omega)).mpr
      (by rw [preserveF_eq]; decide)
  · intro h
    have hlt := (C7_amended _ (by decide) h2 5 (by omega)).mp h
    rw [preserveF_eq] at hlt
    revert hlt
    decide

end Hinglish
